import Mathlib

/-!
Verification of `src/common/hist_util.h` — the histogram-based split-finding
infrastructure of a gradient-boosted tree learner: quantile-cut bin search,
the compressed bin-index storage, the per-node histogram collection and the
parallel histogram builder, shallowly embedded in Lean.

Modelling conventions:
* machine integers are `Nat` (unsigned) with explicit `% 2 ^ 32` where
  overflow matters, and `Int` where the source uses signed values;
* `float` cut values are used by the source only in ordered comparisons,
  never in arithmetic, so they are modelled by `ℚ` (an exact linear order in
  which every literal of the source's test values is representable);
* gradient pairs accumulate exactly (`ℚ × ℚ`): the claims under test are
  about which contributions reach which bin, not about rounding;
* operations whose `CHECK` macros can fire return `Option`.
-/

namespace HistUtil

/-- Gradient/hessian pair (`xgboost::detail::GradientPairInternal`),
with exact arithmetic. -/
abbrev GPair := ℚ × ℚ

/-! ## HistogramCuts (`hist_util.h`, lines 38–130)

A CSC matrix of histogram cuts: `cut_values_` concatenates each feature's
strictly ascending bin boundaries, `cut_ptrs_` delimits each feature's slice,
`min_vals_` records per-feature minima. -/

/-- Denotation of `std::upper_bound` on one feature's cut slice: the index of
the first element strictly greater than `v`, or the length of the slice when
no such element exists.  On the sorted ranges the source searches this is the
documented result of the binary search. -/
def upperBound (v : ℚ) : List ℚ → ℕ
  | [] => 0
  | x :: xs => if v < x then 0 else upperBound v xs + 1

/-- Denotation of `std::lower_bound`: the index of the first element that is
not less than `v`, or the length of the slice when no such element exists. -/
def lowerBound (v : ℚ) : List ℚ → ℕ
  | [] => 0
  | x :: xs => if x < v then lowerBound v xs + 1 else 0

/-- The three parallel arrays of `HistogramCuts` (lines 43–46). -/
structure HistogramCuts where
  cut_values : List ℚ
  cut_ptrs : List ℕ
  min_vals : List ℚ

/-- The slice of boundaries belonging to feature `f`:
`cut_values[cut_ptrs[f] : cut_ptrs[f+1]]`. -/
def HistogramCuts.slice (c : HistogramCuts) (f : ℕ) : List ℚ :=
  (c.cut_values.drop (c.cut_ptrs.getD f 0)).take
    (c.cut_ptrs.getD (f + 1) 0 - c.cut_ptrs.getD f 0)

/-- `HistogramCuts::SearchBin(float value, uint32_t column_id)` (lines 95–105):
`upper_bound` over the feature's slice, then `idx -= 1` (on a `uint32_t`, hence
the `% 2 ^ 32`) when the search ran off the end of the slice. -/
def HistogramCuts.SearchBin (c : HistogramCuts) (value : ℚ) (column_id : ℕ) : ℕ :=
  let beg := c.cut_ptrs.getD column_id 0
  let e := c.cut_ptrs.getD (column_id + 1) 0
  let idx := beg + upperBound value (c.slice column_id)
  if idx = e then (idx + 2 ^ 32 - 1) % 2 ^ 32 else idx

/-- Modelled from the spec: `common::AsCat` lives in `categorical.h`, which is
not under `src/`; per the comment at its call site (line 122, "Truncates the
value in case it's not perfectly rounded") it is the float→integer cast, i.e.
rounding toward zero. -/
def AsCat (v : ℚ) : ℤ := if 0 ≤ v then ⌊v⌋ else ⌈v⌉

/-- `HistogramCuts::SearchCatBin(Entry const&)` (lines 117–129): `lower_bound`
for the truncated category value over the feature's slice, clamped to the last
bin when the category exceeds every boundary. -/
def HistogramCuts.SearchCatBin (c : HistogramCuts) (fvalue : ℚ) (findex : ℕ) : ℕ :=
  let e := c.cut_ptrs.getD (findex + 1) 0
  let beg := c.cut_ptrs.getD findex 0
  let v : ℚ := (AsCat fvalue : ℤ)
  let bin_idx := beg + lowerBound v (c.slice findex)
  if bin_idx = e then (bin_idx + 2 ^ 32 - 1) % 2 ^ 32 else bin_idx

/-! Basic facts about the two search denotations. -/

theorem upperBound_le_length (v : ℚ) (l : List ℚ) : upperBound v l ≤ l.length := by
  induction l with
  | nil => simp [upperBound]
  | cons x xs ih =>
    simp only [upperBound, List.length_cons]
    split
    · omega
    · omega

theorem upperBound_eq_length (v : ℚ) (l : List ℚ) (h : ∀ x ∈ l, x ≤ v) :
    upperBound v l = l.length := by
  induction l with
  | nil => simp [upperBound]
  | cons x xs ih =>
    have hx : x ≤ v := h x (by simp)
    simp only [upperBound, List.length_cons]
    rw [if_neg (by exact not_lt.mpr hx)]
    rw [ih (fun y hy => h y (by simp [hy]))]

theorem upperBound_lt_length (v : ℚ) (l : List ℚ) (h : upperBound v l < l.length) :
    v < l.getD (upperBound v l) 0 ∧ ∀ j < upperBound v l, l.getD j 0 ≤ v := by
  induction l with
  | nil => simp [upperBound] at h
  | cons x xs ih =>
    by_cases hvx : v < x
    · simp [upperBound, hvx]
    · simp only [upperBound, if_neg hvx, List.length_cons, Nat.add_lt_add_iff_right] at h
      obtain ⟨h1, h2⟩ := ih h
      refine ⟨by simpa [upperBound, hvx] using h1, ?_⟩
      intro j hj
      cases j with
      | zero => simpa using not_lt.mp hvx
      | succ k =>
        simp only [upperBound, if_neg hvx] at hj
        simpa using h2 k (by omega)

theorem lowerBound_le_length (v : ℚ) (l : List ℚ) : lowerBound v l ≤ l.length := by
  induction l with
  | nil => simp [lowerBound]
  | cons x xs ih =>
    simp only [lowerBound, List.length_cons]
    split
    · omega
    · omega

theorem lowerBound_eq_length (v : ℚ) (l : List ℚ) (h : ∀ x ∈ l, x < v) :
    lowerBound v l = l.length := by
  induction l with
  | nil => simp [lowerBound]
  | cons x xs ih =>
    have hx : x < v := h x (by simp)
    simp only [lowerBound, List.length_cons]
    rw [if_pos hx, ih (fun y hy => h y (by simp [hy]))]

theorem lowerBound_lt_length (v : ℚ) (l : List ℚ) (h : lowerBound v l < l.length) :
    v ≤ l.getD (lowerBound v l) 0 ∧ ∀ j < lowerBound v l, l.getD j 0 < v := by
  induction l with
  | nil => simp [lowerBound] at h
  | cons x xs ih =>
    by_cases hxv : x < v
    · simp only [lowerBound, if_pos hxv, List.length_cons, Nat.add_lt_add_iff_right] at h
      obtain ⟨h1, h2⟩ := ih h
      refine ⟨by simpa [lowerBound, hxv] using h1, ?_⟩
      intro j hj
      cases j with
      | zero => simpa using hxv
      | succ k =>
        simp only [lowerBound, if_pos hxv] at hj
        simpa using h2 k (by omega)
    · simp [lowerBound, hxv, not_lt.mp hxv]

theorem slice_length (c : HistogramCuts) (f : ℕ)
    (hlen : c.cut_ptrs.getD (f + 1) 0 ≤ c.cut_values.length) :
    (c.slice f).length = c.cut_ptrs.getD (f + 1) 0 - c.cut_ptrs.getD f 0 := by
  simp only [HistogramCuts.slice, List.length_take, List.length_drop]
  omega

/-- The numeric-feature example of the spec: one feature whose bin boundaries
are `[2.0, 5.0, 9.0]`. -/
def exampleCuts : HistogramCuts := ⟨[2, 5, 9], [0, 3], []⟩

/-- The categorical example of the spec: one feature whose categories are
`[1, 3, 7]`. -/
def exampleCatCuts : HistogramCuts := ⟨[1, 3, 7], [0, 3], []⟩

/-- C2, counterexample: the claim asserts `SearchBin(2.0) = 0` on the feature
with boundaries `[2.0, 5.0, 9.0]`, but `std::upper_bound` looks for the first
boundary *strictly greater* than the value, so the source returns bin 1. -/
theorem c2_searchBin_counterexample :
    exampleCuts.SearchBin 2 0 = 1 ∧ exampleCuts.SearchBin 2 0 ≠ 0 := by
  constructor
  · decide
  · decide

/-- C2 (amended): `SearchBin(value, feature)` searches the feature's cut slice
for the first boundary strictly greater than `value` (first conjunct: when such
a boundary exists the result is its global index, and every earlier boundary is
`≤ value`), clamping to the feature's last bin when `value` is at or beyond all
boundaries (second conjunct); on the boundaries `[2.0, 5.0, 9.0]`,
`SearchBin(1.0) = 0`, `SearchBin(2.0) = 1` (amended from the claimed `0`),
`SearchBin(5.5) = 2` and `SearchBin(100.0) = 2`. -/
theorem c2_searchBin_first_strictly_greater :
    (∀ (c : HistogramCuts) (v : ℚ) (f : ℕ),
      c.cut_ptrs.getD f 0 < c.cut_ptrs.getD (f + 1) 0 →
      c.cut_ptrs.getD (f + 1) 0 ≤ c.cut_values.length →
      c.cut_ptrs.getD (f + 1) 0 ≤ 2 ^ 32 →
      (upperBound v (c.slice f) < (c.slice f).length →
        c.SearchBin v f = c.cut_ptrs.getD f 0 + upperBound v (c.slice f) ∧
        v < (c.slice f).getD (upperBound v (c.slice f)) 0 ∧
        ∀ j < upperBound v (c.slice f), (c.slice f).getD j 0 ≤ v) ∧
      ((∀ x ∈ c.slice f, x ≤ v) →
        c.SearchBin v f = c.cut_ptrs.getD (f + 1) 0 - 1)) ∧
    exampleCuts.SearchBin 1 0 = 0 ∧ exampleCuts.SearchBin 2 0 = 1 ∧
    exampleCuts.SearchBin (11 / 2) 0 = 2 ∧ exampleCuts.SearchBin 100 0 = 2 := by
  have hhalf : exampleCuts.SearchBin (11 / 2) 0 = 2 := by
    have h : upperBound (11 / 2) (exampleCuts.slice 0) = 2 := by
      norm_num [upperBound, HistogramCuts.slice, exampleCuts]
    simp only [HistogramCuts.SearchBin, h]
    norm_num [exampleCuts]
  refine ⟨?_, by decide, by decide, hhalf, by decide⟩
  intro c v f hne hlen h32
  have hsl : (c.slice f).length = c.cut_ptrs.getD (f + 1) 0 - c.cut_ptrs.getD f 0 :=
    slice_length c f hlen
  constructor
  · intro hlt
    have hidx : c.cut_ptrs.getD f 0 + upperBound v (c.slice f) ≠ c.cut_ptrs.getD (f + 1) 0 := by
      omega
    refine ⟨?_, (upperBound_lt_length v _ hlt).1, (upperBound_lt_length v _ hlt).2⟩
    simp only [HistogramCuts.SearchBin, if_neg hidx]
  · intro hall
    have hub : upperBound v (c.slice f) = (c.slice f).length := upperBound_eq_length v _ hall
    have hidx : c.cut_ptrs.getD f 0 + upperBound v (c.slice f) = c.cut_ptrs.getD (f + 1) 0 := by
      omega
    simp only [HistogramCuts.SearchBin]
    rw [if_pos hidx, hidx]
    omega

/-- C7: `SearchCatBin` finds the smallest boundary in the feature's cut slice
that is not less than the (truncated) integer-valued category (first conjunct:
lower-bound semantics), clamping to the feature's last bin when no such
boundary exists (second conjunct); on categorical boundaries `[1, 3, 7]`,
`SearchCatBin(3)` returns bin 1, whose boundary is 3, and `SearchCatBin(8)`
returns the last bin, 2. -/
theorem c7_searchCatBin_lower_bound :
    (∀ (c : HistogramCuts) (v : ℚ) (f : ℕ),
      c.cut_ptrs.getD f 0 < c.cut_ptrs.getD (f + 1) 0 →
      c.cut_ptrs.getD (f + 1) 0 ≤ c.cut_values.length →
      c.cut_ptrs.getD (f + 1) 0 ≤ 2 ^ 32 →
      (lowerBound ((AsCat v : ℤ) : ℚ) (c.slice f) < (c.slice f).length →
        c.SearchCatBin v f = c.cut_ptrs.getD f 0 + lowerBound ((AsCat v : ℤ) : ℚ) (c.slice f) ∧
        ((AsCat v : ℤ) : ℚ) ≤ (c.slice f).getD (lowerBound ((AsCat v : ℤ) : ℚ) (c.slice f)) 0 ∧
        ∀ j < lowerBound ((AsCat v : ℤ) : ℚ) (c.slice f), (c.slice f).getD j 0 < ((AsCat v : ℤ) : ℚ)) ∧
      ((∀ x ∈ c.slice f, x < ((AsCat v : ℤ) : ℚ)) →
        c.SearchCatBin v f = c.cut_ptrs.getD (f + 1) 0 - 1)) ∧
    exampleCatCuts.SearchCatBin 3 0 = 1 ∧ exampleCatCuts.cut_values.getD 1 0 = 3 ∧
    exampleCatCuts.SearchCatBin 8 0 = 2 := by
  refine ⟨?_, by decide, by decide, by decide⟩
  intro c v f hne hlen h32
  have hsl : (c.slice f).length = c.cut_ptrs.getD (f + 1) 0 - c.cut_ptrs.getD f 0 :=
    slice_length c f hlen
  constructor
  · intro hlt
    have hidx : c.cut_ptrs.getD f 0 + lowerBound ((AsCat v : ℤ) : ℚ) (c.slice f) ≠
        c.cut_ptrs.getD (f + 1) 0 := by omega
    refine ⟨?_, (lowerBound_lt_length _ _ hlt).1, (lowerBound_lt_length _ _ hlt).2⟩
    simp only [HistogramCuts.SearchCatBin, if_neg hidx]
  · intro hall
    have hub : lowerBound ((AsCat v : ℤ) : ℚ) (c.slice f) = (c.slice f).length :=
      lowerBound_eq_length _ _ hall
    have hidx : c.cut_ptrs.getD f 0 + lowerBound ((AsCat v : ℤ) : ℚ) (c.slice f) =
        c.cut_ptrs.getD (f + 1) 0 := by omega
    simp only [HistogramCuts.SearchCatBin]
    rw [if_pos hidx, hidx]
    omega

/-- C10: for a feature whose cut slice is non-empty, `SearchBin` always returns
an index inside that feature's own bin range `[cut_ptrs f, cut_ptrs (f+1))`
(first conjunct); the non-empty-slice precondition is required: on an empty
slice the clamp step computes `cut_ptrs f - 1` modulo `2 ^ 32`, which lies
outside the feature's (empty) range and, for `cut_ptrs f ≥ 1`, below it
(second conjunct). -/
theorem c10_searchBin_stays_in_feature_range :
    (∀ (c : HistogramCuts) (v : ℚ) (f : ℕ),
      c.cut_ptrs.getD f 0 < c.cut_ptrs.getD (f + 1) 0 →
      c.cut_ptrs.getD (f + 1) 0 ≤ c.cut_values.length →
      c.cut_ptrs.getD (f + 1) 0 ≤ 2 ^ 32 →
      c.cut_ptrs.getD f 0 ≤ c.SearchBin v f ∧
        c.SearchBin v f < c.cut_ptrs.getD (f + 1) 0) ∧
    (∀ (c : HistogramCuts) (v : ℚ) (f : ℕ),
      c.cut_ptrs.getD f 0 = c.cut_ptrs.getD (f + 1) 0 →
      1 ≤ c.cut_ptrs.getD f 0 → c.cut_ptrs.getD f 0 ≤ 2 ^ 32 →
      c.SearchBin v f = c.cut_ptrs.getD f 0 - 1 ∧
        c.SearchBin v f < c.cut_ptrs.getD f 0) := by
  constructor
  · intro c v f hne hlen h32
    have hsl : (c.slice f).length = c.cut_ptrs.getD (f + 1) 0 - c.cut_ptrs.getD f 0 :=
      slice_length c f hlen
    have hub : upperBound v (c.slice f) ≤ (c.slice f).length := upperBound_le_length v _
    simp only [HistogramCuts.SearchBin]
    split
    · omega
    · omega
  · intro c v f hemp h1 h32
    have hsl : (c.slice f).length = 0 := by
      simp only [HistogramCuts.slice, List.length_take, List.length_drop]
      omega
    have hub : upperBound v (c.slice f) = 0 := by
      have := upperBound_le_length v (c.slice f)
      omega
    simp only [HistogramCuts.SearchBin, hub, Nat.add_zero]
    rw [if_pos hemp, hemp]
    omega

/-- Witness for C2: the general characterization applied to the feature
`[2.0, 5.0, 9.0]` at the value 3, whose first strictly greater boundary is 5. -/
theorem c2_searchBin_first_strictly_greater_witness :
    (exampleCuts.cut_ptrs.getD 0 0 < exampleCuts.cut_ptrs.getD 1 0 ∧
     exampleCuts.cut_ptrs.getD 1 0 ≤ exampleCuts.cut_values.length ∧
     exampleCuts.cut_ptrs.getD 1 0 ≤ 2 ^ 32 ∧
     upperBound 3 (exampleCuts.slice 0) < (exampleCuts.slice 0).length) ∧
    exampleCuts.SearchBin 3 0 = exampleCuts.cut_ptrs.getD 0 0 + upperBound 3 (exampleCuts.slice 0) ∧
    (3 : ℚ) < (exampleCuts.slice 0).getD (upperBound 3 (exampleCuts.slice 0)) 0 ∧
    (∀ j < upperBound 3 (exampleCuts.slice 0), (exampleCuts.slice 0).getD j 0 ≤ 3) :=
  ⟨⟨by decide, by decide, by decide, by decide⟩,
   (c2_searchBin_first_strictly_greater.1 exampleCuts 3 0 (by decide) (by decide) (by decide)).1
     (by decide)⟩

/-- Witness for C7: the general characterization applied to the categorical
feature `[1, 3, 7]` at the category 4, whose smallest not-less boundary is 7. -/
theorem c7_searchCatBin_lower_bound_witness :
    (exampleCatCuts.cut_ptrs.getD 0 0 < exampleCatCuts.cut_ptrs.getD 1 0 ∧
     exampleCatCuts.cut_ptrs.getD 1 0 ≤ exampleCatCuts.cut_values.length ∧
     exampleCatCuts.cut_ptrs.getD 1 0 ≤ 2 ^ 32 ∧
     lowerBound ((AsCat 4 : ℤ) : ℚ) (exampleCatCuts.slice 0) < (exampleCatCuts.slice 0).length) ∧
    exampleCatCuts.SearchCatBin 4 0 =
      exampleCatCuts.cut_ptrs.getD 0 0 + lowerBound ((AsCat 4 : ℤ) : ℚ) (exampleCatCuts.slice 0) ∧
    ((AsCat 4 : ℤ) : ℚ) ≤
      (exampleCatCuts.slice 0).getD (lowerBound ((AsCat 4 : ℤ) : ℚ) (exampleCatCuts.slice 0)) 0 ∧
    (∀ j < lowerBound ((AsCat 4 : ℤ) : ℚ) (exampleCatCuts.slice 0),
      (exampleCatCuts.slice 0).getD j 0 < ((AsCat 4 : ℤ) : ℚ)) :=
  ⟨⟨by decide, by decide, by decide, by decide⟩,
   (c7_searchCatBin_lower_bound.1 exampleCatCuts 4 0 (by decide) (by decide) (by decide)).1
     (by decide)⟩

/-- Witness for C10: the range property applied to the feature `[2.0, 5.0, 9.0]`
at the out-of-range value 100, and the empty-slice behaviour on a second
feature whose slice is empty. -/
theorem c10_searchBin_stays_in_feature_range_witness :
    (exampleCuts.cut_ptrs.getD 0 0 < exampleCuts.cut_ptrs.getD 1 0 ∧
     exampleCuts.cut_ptrs.getD 1 0 ≤ exampleCuts.cut_values.length ∧
     exampleCuts.cut_ptrs.getD 1 0 ≤ 2 ^ 32) ∧
    (exampleCuts.cut_ptrs.getD 0 0 ≤ exampleCuts.SearchBin 100 0 ∧
     exampleCuts.SearchBin 100 0 < exampleCuts.cut_ptrs.getD 1 0) ∧
    (let c2f : HistogramCuts := ⟨[2, 5, 9], [0, 3, 3], []⟩
     c2f.SearchBin 100 1 = c2f.cut_ptrs.getD 1 0 - 1 ∧
     c2f.SearchBin 100 1 < c2f.cut_ptrs.getD 1 0) :=
  ⟨⟨by decide, by decide, by decide⟩,
   c10_searchBin_stays_in_feature_range.1 exampleCuts 100 0 (by decide) (by decide) (by decide),
   c10_searchBin_stays_in_feature_range.2 ⟨[2, 5, 9], [0, 3, 3], []⟩ 100 1 (by decide) (by decide)
     (by decide)⟩

/-! ## Compressed bin index (`struct Index`, lines 159–257)

A variable-width packed array of bin ids.  The byte buffer `data_` is modelled
as a function `ℕ → ℕ` holding one byte per position; the element width is the
`BinTypeSize` tag; the optional offset table adds `offset_ptr_[i % p_]` on
every read. -/

/-- `enum BinTypeSize` (lines 159–163), as the element width tag. -/
inductive BinTypeSize
  | kUint8BinsTypeSize
  | kUint16BinsTypeSize
  | kUint32BinsTypeSize
deriving DecidableEq

/-- The width in bytes denoted by a `BinTypeSize` (its numeric enum value). -/
def BinTypeSize.bytes : BinTypeSize → ℕ
  | .kUint8BinsTypeSize => 1
  | .kUint16BinsTypeSize => 2
  | .kUint32BinsTypeSize => 4

/-- `Index::GetValueFromUint8` (lines 238–240): element `i` is byte `i`. -/
def GetValueFromUint8 (mem : ℕ → ℕ) (i : ℕ) : ℕ := mem i

/-- `Index::GetValueFromUint16` (lines 241–243): element `i` is the
little-endian 16-bit word held in bytes `2i, 2i+1`. -/
def GetValueFromUint16 (mem : ℕ → ℕ) (i : ℕ) : ℕ :=
  mem (2 * i) + 256 * mem (2 * i + 1)

/-- `Index::GetValueFromUint32` (lines 244–246): element `i` is the
little-endian 32-bit word held in bytes `4i .. 4i+3`. -/
def GetValueFromUint32 (mem : ℕ → ℕ) (i : ℕ) : ℕ :=
  mem (4 * i) + 256 * mem (4 * i + 1) + 256 ^ 2 * mem (4 * i + 2) + 256 ^ 3 * mem (4 * i + 3)

/-- The width dispatch installed by `Index::SetBinTypeSize` (`func_`,
lines 180–197). -/
def getValue : BinTypeSize → (ℕ → ℕ) → ℕ → ℕ
  | .kUint8BinsTypeSize => GetValueFromUint8
  | .kUint16BinsTypeSize => GetValueFromUint16
  | .kUint32BinsTypeSize => GetValueFromUint32

/-- Store value `v` as element `i` of the byte buffer in width `w`
(little-endian byte order), the way the single external construction pass
writes through `Index::data<T>()`. -/
def writeElem (w : BinTypeSize) (mem : ℕ → ℕ) (i v : ℕ) : ℕ → ℕ :=
  fun j =>
    if w.bytes * i ≤ j ∧ j < w.bytes * i + w.bytes then v / 256 ^ (j - w.bytes * i) % 256
    else mem j

/-- The fields of `struct Index` that determine its read behaviour: byte
buffer and its size, offset table and its size, element width, stride `p_`,
and whether `offset_ptr_` has been installed. -/
structure Index where
  dataBytes : ℕ
  mem : ℕ → ℕ
  offsetSize : ℕ
  offt : ℕ → ℕ
  binTypeSize : BinTypeSize
  p : ℕ
  offsetPresent : Bool

/-- `Index::operator[]` (lines 173–179): the width-dispatched raw read plus,
when the offset table is installed, the per-position offset
`offset_ptr_[i % p_]`.  The function returns `uint32_t` and both operands are
`uint32_t`, so the sum wraps modulo `2^32`. -/
def Index.read (s : Index) (i : ℕ) : ℕ :=
  if s.offsetPresent then (getValue s.binTypeSize s.mem i + s.offt (i % s.p)) % 2 ^ 32
  else getValue s.binTypeSize s.mem i

/-- `Index::Size()` (lines 211–213): `data_.size() / binTypeSize_`. -/
def Index.Size (s : Index) : ℕ := s.dataBytes / s.binTypeSize.bytes

/-- `Index::Resize(nBytesData)` (lines 214–217): resizes the byte buffer and
refreshes `data_ptr_`; the source performs no validation of any kind here. -/
def Index.Resize (s : Index) (nBytesData : ℕ) : Index :=
  { s with dataBytes := nBytesData }

/-- `Index::ResizeOffset(nDisps)` (lines 218–222): resizes the offset table,
installs `offset_ptr_` and sets the stride `p_ := nDisps`; the source performs
no validation of any kind here. -/
def Index.ResizeOffset (s : Index) (nDisps : ℕ) : Index :=
  { s with offsetSize := nDisps, p := nDisps, offsetPresent := true }

/-- A default-constructed `Index` (lines 166–168 and 250–256): empty 8-bit
buffer, stride 1, no offset table. -/
def Index.init : Index :=
  ⟨0, fun _ => 0, 0, fun _ => 0, .kUint8BinsTypeSize, 1, false⟩

/-- Writing an element only touches its own bytes, and reading byte `k` of the
written element recovers the `k`-th base-256 digit of the value. -/
theorem writeElem_get (w : BinTypeSize) (mem : ℕ → ℕ) (i v k : ℕ) (hk : k < w.bytes) :
    writeElem w mem i v (w.bytes * i + k) = v / 256 ^ k % 256 := by
  simp only [writeElem]
  rw [if_pos (by omega), Nat.add_sub_cancel_left]

/-- Raw width-dispatched round-trip: a value representable in width `w`,
stored at element `i`, is recovered by the matching decoder. -/
theorem getValue_writeElem (w : BinTypeSize) (mem : ℕ → ℕ) (i v : ℕ)
    (hv : v < 256 ^ w.bytes) :
    getValue w (writeElem w mem i v) i = v := by
  cases w with
  | kUint8BinsTypeSize =>
    have h0 := writeElem_get .kUint8BinsTypeSize mem i v 0 (by decide)
    simp only [BinTypeSize.bytes, one_mul, Nat.add_zero, pow_zero, Nat.div_one] at h0
    simp only [BinTypeSize.bytes, pow_one] at hv
    simp only [getValue, GetValueFromUint8]
    rw [h0]
    omega
  | kUint16BinsTypeSize =>
    have h0 := writeElem_get .kUint16BinsTypeSize mem i v 0 (by decide)
    have h1 := writeElem_get .kUint16BinsTypeSize mem i v 1 (by decide)
    simp only [BinTypeSize.bytes, Nat.add_zero, pow_zero, Nat.div_one, pow_one] at h0 h1
    have hv' : v < 65536 := by exact hv
    simp only [getValue, GetValueFromUint16]
    rw [h0, h1]
    omega
  | kUint32BinsTypeSize =>
    have h0 := writeElem_get .kUint32BinsTypeSize mem i v 0 (by decide)
    have h1 := writeElem_get .kUint32BinsTypeSize mem i v 1 (by decide)
    have h2 := writeElem_get .kUint32BinsTypeSize mem i v 2 (by decide)
    have h3 := writeElem_get .kUint32BinsTypeSize mem i v 3 (by decide)
    simp only [BinTypeSize.bytes, Nat.add_zero, pow_zero, Nat.div_one, pow_one] at h0 h1 h2 h3
    have hv' : v < 4294967296 := by exact hv
    have e2 : (256 : ℕ) ^ 2 = 65536 := by norm_num
    have e3 : (256 : ℕ) ^ 3 = 16777216 := by norm_num
    simp only [getValue, GetValueFromUint32]
    rw [h0, h1, h2, h3, e2, e3]
    omega

/-- C3 counterexample: `operator[]` adds the raw value and the offset in
`uint32_t`, so the sum wraps modulo `2^32`: an 8-bit element holding `200`
read through an installed offset of `2^32 - 56` comes back as `144`, not as
the claimed `200 + (2^32 - 56)`. -/
theorem c3_offset_wrap_counterexample :
    Index.read (Index.ResizeOffset ⟨1, writeElem .kUint8BinsTypeSize (fun _ => 0) 0 200,
      0, (fun _ => 4294967240), .kUint8BinsTypeSize, 1, false⟩ 1) 0 = 144 ∧
    (144 : ℕ) ≠ 200 + 4294967240 := by
  refine ⟨by decide, by decide⟩

/-- C3 (amended): for every storage width (8-, 16- or 32-bit) and every value
representable in that width, writing the value at element `i` and reading
position `i` back through `Index::operator[]` returns the original value
(first conjunct, no offset table); when the offset table of size `p ≥ 1` is
installed by `ResizeOffset p`, the value read at position `i` is the stored
raw value plus `offset[i % p]` *wrapped modulo `2^32`* — the `uint32_t` sum
(second conjunct) — which equals the plain sum exactly when that sum is
representable in `uint32_t` (third conjunct); the unconditional plain-sum
reading of the original claim fails on overflow, see the counterexample. -/
theorem c3_compressed_index_roundtrip (w : BinTypeSize) (mem : ℕ → ℕ) (offt : ℕ → ℕ)
    (nb no i v p : ℕ) (hv : v < 256 ^ w.bytes) (hp : 0 < p) :
    (Index.read ⟨nb, writeElem w mem i v, no, offt, w, 1, false⟩ i = v) ∧
    (Index.read (Index.ResizeOffset ⟨nb, writeElem w mem i v, no, offt, w, 1, false⟩ p) i
      = (v + offt (i % p)) % 2 ^ 32) ∧
    (v + offt (i % p) < 2 ^ 32 →
      Index.read (Index.ResizeOffset ⟨nb, writeElem w mem i v, no, offt, w, 1, false⟩ p) i
        = v + offt (i % p)) := by
  have hraw : Index.read ⟨nb, writeElem w mem i v, no, offt, w, 1, false⟩ i = v := by
    simp only [Index.read, Bool.false_eq_true, if_false]
    exact getValue_writeElem w mem i v hv
  have hwrap : Index.read
      (Index.ResizeOffset ⟨nb, writeElem w mem i v, no, offt, w, 1, false⟩ p) i
      = (v + offt (i % p)) % 2 ^ 32 := by
    simp only [Index.read, Index.ResizeOffset, if_true]
    rw [getValue_writeElem w mem i v hv]
  refine ⟨hraw, hwrap, ?_⟩
  intro hlt
  rw [hwrap]
  exact Nat.mod_eq_of_lt hlt

/-- Witness for C3: width 16 bits, value `4660` stored at element 5, offset
table `10 * j` of size 3 — the sum `4660 + 20` does not overflow, so the
read is both the wrapped and the plain sum. -/
theorem c3_compressed_index_roundtrip_witness :
    (4660 < 256 ^ BinTypeSize.kUint16BinsTypeSize.bytes ∧ 0 < 3) ∧
    (Index.read ⟨20, writeElem .kUint16BinsTypeSize (fun _ => 0) 5 4660, 0, (fun j => 10 * j),
        .kUint16BinsTypeSize, 1, false⟩ 5 = 4660) ∧
    (Index.read (Index.ResizeOffset ⟨20, writeElem .kUint16BinsTypeSize (fun _ => 0) 5 4660, 0,
        (fun j => 10 * j), .kUint16BinsTypeSize, 1, false⟩ 3) 5
      = (4660 + (fun j => 10 * j) (5 % 3)) % 2 ^ 32) ∧
    (4660 + (fun j => 10 * j) (5 % 3) < 2 ^ 32 →
      Index.read (Index.ResizeOffset ⟨20, writeElem .kUint16BinsTypeSize (fun _ => 0) 5 4660, 0,
        (fun j => 10 * j), .kUint16BinsTypeSize, 1, false⟩ 3) 5
        = 4660 + (fun j => 10 * j) (5 % 3)) :=
  ⟨⟨by decide, by decide⟩,
   c3_compressed_index_roundtrip .kUint16BinsTypeSize (fun _ => 0) (fun j => 10 * j)
     20 0 5 4660 3 (by decide) (by decide)⟩

/-- C8, counterexample: `Resize` and `ResizeOffset` contain no validity check
at all; resizing the data buffer to 7 one-byte elements while the offset table
keeps 3 entries is accepted, leaving the Index holding exactly that
inconsistent pair of sizes (7 elements cannot be `rows × 3` features). -/
theorem c8_resize_unchecked_counterexample :
    ((Index.init.ResizeOffset 3).Resize 7).Size = 7 ∧
    ((Index.init.ResizeOffset 3).Resize 7).offsetSize = 3 ∧
    ((Index.init.ResizeOffset 3).Resize 7).p = 3 ∧
    ¬ 3 ∣ ((Index.init.ResizeOffset 3).Resize 7).Size := by
  refine ⟨rfl, rfl, rfl, by decide⟩

/-- C8 (amended): the source rejects nothing here — `Resize` unconditionally
sets the byte-buffer size, touching neither the offset table nor the stride,
and `ResizeOffset` unconditionally sets the offset-table size and the stride;
keeping the two consistent with one row/feature topology is entirely the
caller's burden. -/
theorem c8_resize_resizeOffset_unvalidated (s : Index) (n m : ℕ) :
    (s.Resize n).dataBytes = n ∧ (s.Resize n).offsetSize = s.offsetSize ∧
    (s.Resize n).p = s.p ∧ (s.Resize n).offsetPresent = s.offsetPresent ∧
    (s.ResizeOffset m).offsetSize = m ∧ (s.ResizeOffset m).p = m ∧
    (s.ResizeOffset m).dataBytes = s.dataBytes :=
  ⟨rfl, rfl, rfl, rfl, rfl, rfl, rfl⟩

/-! ## `BinarySearchBin` (lines 260–284)

The guarded binary search over a sorted run of bin ids, returning the first
hit inside `[fidx_begin, fidx_end)` or `-1`.  The loop's exit is guaranteed by
`previous_middle`; the embedding makes the iteration count explicit as fuel
and proves that `end - begin + 1` iterations always reach the source's exit. -/

/-- The value of `static_cast<int32_t>(g)` for a `uint32_t` value `g`. -/
def toInt32 (g : ℕ) : ℤ :=
  if g % 4294967296 < 2147483648 then (g % 4294967296 : ℤ)
  else (g % 4294967296 : ℤ) - 4294967296

/-- The loop of `BinarySearchBin` (lines 264–283): `prev` is
`previous_middle`; each iteration returns a hit cast to `int32_t`, halves the
interval towards the side that can contain the feature's bin range, breaks
(returning `-1`, "value is missing") when the middle stops moving, or exits
when the interval is empty. -/
def bsbLoop (data : ℕ → ℕ) (fidx_begin fidx_end : ℕ) :
    ℕ → ℕ → ℕ → Option ℕ → ℤ
  | 0, _, _, _ => -1
  | fuel + 1, b, e, prev =>
    if e ≤ b then -1
    else if prev = some (b + (e - b) / 2) then -1
    else if fidx_begin ≤ data (b + (e - b) / 2) ∧ data (b + (e - b) / 2) < fidx_end then
      toInt32 (data (b + (e - b) / 2))
    else if data (b + (e - b) / 2) < fidx_begin then
      bsbLoop data fidx_begin fidx_end fuel (b + (e - b) / 2) e (some (b + (e - b) / 2))
    else
      bsbLoop data fidx_begin fidx_end fuel b (b + (e - b) / 2) (some (b + (e - b) / 2))

/-- `BinarySearchBin(begin, end, data, fidx_begin, fidx_end)`: the loop run
with `end - begin + 1` iterations available, which `bsbLoop_stable` shows is
always enough to reach the source loop's own exit. -/
def BinarySearchBin (b e : ℕ) (data : ℕ → ℕ) (fidx_begin fidx_end : ℕ) : ℤ :=
  bsbLoop data fidx_begin fidx_end (e - b + 1) b e none

/-- One unfolding step of the loop, used to control rewriting. -/
theorem bsbLoop_succ (data : ℕ → ℕ) (fb fe fuel b e : ℕ) (prev : Option ℕ) :
    bsbLoop data fb fe (fuel + 1) b e prev =
    if e ≤ b then -1
    else if prev = some (b + (e - b) / 2) then -1
    else if fb ≤ data (b + (e - b) / 2) ∧ data (b + (e - b) / 2) < fe then
      toInt32 (data (b + (e - b) / 2))
    else if data (b + (e - b) / 2) < fb then
      bsbLoop data fb fe fuel (b + (e - b) / 2) e (some (b + (e - b) / 2))
    else
      bsbLoop data fb fe fuel b (b + (e - b) / 2) (some (b + (e - b) / 2)) := rfl

/-- Fuel adequacy: on an interval of width at most `s`, any fuel of at least
`s + 1` computes the same answer as exactly `s + 1` — i.e. the source loop
terminates within `end - begin + 1` iterations and the fuel is immaterial
beyond that. -/
theorem bsbLoop_stable (data : ℕ → ℕ) (fb fe : ℕ) :
    ∀ (s fuel b e : ℕ) (prev : Option ℕ), e - b ≤ s → s + 1 ≤ fuel →
    bsbLoop data fb fe fuel b e prev = bsbLoop data fb fe (s + 1) b e prev := by
  intro s
  induction s with
  | zero =>
    intro fuel b e prev hs hf
    obtain ⟨f, rfl⟩ : ∃ f, fuel = f + 1 := ⟨fuel - 1, by omega⟩
    have he : e ≤ b := by omega
    rw [bsbLoop_succ data fb fe f, bsbLoop_succ data fb fe 0, if_pos he, if_pos he]
  | succ s ih =>
    intro fuel b e prev hs hf
    obtain ⟨f, rfl⟩ : ∃ f, fuel = f + 1 := ⟨fuel - 1, by omega⟩
    rw [bsbLoop_succ data fb fe f, bsbLoop_succ data fb fe (s + 1)]
    by_cases he : e ≤ b
    · rw [if_pos he, if_pos he]
    · rw [if_neg he, if_neg he]
      by_cases hprev : prev = some (b + (e - b) / 2)
      · rw [if_pos hprev, if_pos hprev]
      · rw [if_neg hprev, if_neg hprev]
        by_cases hin : fb ≤ data (b + (e - b) / 2) ∧ data (b + (e - b) / 2) < fe
        · rw [if_pos hin, if_pos hin]
        · rw [if_neg hin, if_neg hin]
          by_cases hlt : data (b + (e - b) / 2) < fb
          · rw [if_pos hlt, if_pos hlt]
            by_cases hmb : b + (e - b) / 2 = b
            · obtain ⟨f2, rfl⟩ : ∃ f2, f = f2 + 1 := ⟨f - 1, by omega⟩
              have hc : (some b : Option ℕ) = some (b + (e - b) / 2) := by rw [hmb]
              rw [hmb, bsbLoop_succ data fb fe f2, bsbLoop_succ data fb fe s,
                if_neg he, if_neg he, if_pos hc, if_pos hc]
            · have h1 : e - (b + (e - b) / 2) ≤ s := by omega
              rw [ih f (b + (e - b) / 2) e (some (b + (e - b) / 2)) h1 (by omega)]
          · rw [if_neg hlt, if_neg hlt]
            have h1 : (b + (e - b) / 2) - b ≤ s := by omega
            rw [ih f b (b + (e - b) / 2) (some (b + (e - b) / 2)) h1 (by omega)]

/-- Soundness of the loop: the result is `-1`, or the `int32_t` cast of a
value that occurs at a position of `data` inside `[b, e)` and lies in
`[fidx_begin, fidx_end)`. -/
theorem bsbLoop_sound (data : ℕ → ℕ) (fb fe : ℕ) :
    ∀ (fuel b e : ℕ) (prev : Option ℕ),
    bsbLoop data fb fe fuel b e prev = -1 ∨
    ∃ j, b ≤ j ∧ j < e ∧ toInt32 (data j) = bsbLoop data fb fe fuel b e prev ∧
      fb ≤ data j ∧ data j < fe := by
  intro fuel
  induction fuel with
  | zero => intro b e prev; left; rfl
  | succ f ih =>
    intro b e prev
    by_cases he : e ≤ b
    · left; simp only [bsbLoop, if_pos he]
    · by_cases hprev : prev = some (b + (e - b) / 2)
      · left; simp only [bsbLoop, if_pos he, if_neg he, if_pos hprev]
      · by_cases hin : fb ≤ data (b + (e - b) / 2) ∧ data (b + (e - b) / 2) < fe
        · right
          refine ⟨b + (e - b) / 2, by omega, by omega, ?_, hin.1, hin.2⟩
          simp only [bsbLoop, if_neg he, if_neg hprev, if_pos hin]
        · by_cases hlt : data (b + (e - b) / 2) < fb
          · have heq : bsbLoop data fb fe (f + 1) b e prev =
                bsbLoop data fb fe f (b + (e - b) / 2) e (some (b + (e - b) / 2)) := by
              simp only [bsbLoop, if_neg he, if_neg hprev, if_neg hin, if_pos hlt]
            rw [heq]
            rcases ih (b + (e - b) / 2) e (some (b + (e - b) / 2)) with h | ⟨j, h1, h2, h3, h4⟩
            · left; exact h
            · right; exact ⟨j, by omega, h2, h3, h4⟩
          · have heq : bsbLoop data fb fe (f + 1) b e prev =
                bsbLoop data fb fe f b (b + (e - b) / 2) (some (b + (e - b) / 2)) := by
              simp only [bsbLoop, if_neg he, if_neg hprev, if_neg hin, if_neg hlt]
            rw [heq]
            rcases ih b (b + (e - b) / 2) (some (b + (e - b) / 2)) with h | ⟨j, h1, h2, h3, h4⟩
            · left; exact h
            · right; exact ⟨j, h1, by omega, h3, h4⟩

/-- The `int32_t` cast is the identity below `2^31`. -/
theorem toInt32_small (g : ℕ) (h : g < 2147483648) : toInt32 g = (g : ℤ) := by
  simp only [toInt32]
  rw [if_pos (show g % 4294967296 < 2147483648 by omega)]
  omega

/-- C9, counterexample: `BinarySearchBin` returns the hit through
`static_cast<int32_t>(gidx)`; with the single stored value `2^31` (legal for a
`uint32_t` bin id) and feature range `[2^31, 2^31 + 1)`, the hit comes back as
`-2^31` — neither `-1` nor a value that occurs in `data[begin, end)`, so the
claim as stated fails at this input. -/
theorem c9_binarySearchBin_counterexample :
    BinarySearchBin 0 1 (fun _ => 2147483648) 2147483648 2147483649 = -2147483648 ∧
    (-2147483648 : ℤ) ≠ -1 ∧
    ∀ j, 0 ≤ j → j < 1 → ((fun _ => (2147483648 : ℕ)) j : ℤ) ≠ -2147483648 := by
  refine ⟨by decide, by decide, ?_⟩
  intro j h0 h1
  have hj : j = 0 := by omega
  subst hj
  decide

/-- C9 (amended): for every `begin ≤ end`, index data and feature range,
provided every data value on `[begin, end)` is representable in `int32_t`
(below `2^31` — without this the hit is distorted by the `int32_t` cast, see
the counterexample), `BinarySearchBin` terminates — the result is independent
of any fuel beyond `end - begin + 1` iterations — and returns either `-1` or a
value `gidx` that occurs at some position of `data[begin, end)` and satisfies
`fidx_begin ≤ gidx < fidx_end`; it never returns a value outside that range. -/
theorem c9_binarySearchBin_terminates_and_sound (b e : ℕ) (data : ℕ → ℕ) (fb fe : ℕ)
    (hbe : b ≤ e) (hsmall : ∀ j, b ≤ j → j < e → data j < 2147483648) :
    (∀ extra, bsbLoop data fb fe (e - b + 1 + extra) b e none = BinarySearchBin b e data fb fe) ∧
    (BinarySearchBin b e data fb fe = -1 ∨
      ∃ j, b ≤ j ∧ j < e ∧ ((data j : ℤ) = BinarySearchBin b e data fb fe ∧
        fb ≤ data j ∧ data j < fe)) := by
  constructor
  · intro extra
    exact bsbLoop_stable data fb fe (e - b) (e - b + 1 + extra) b e none (by omega) (by omega)
  · rcases bsbLoop_sound data fb fe (e - b + 1) b e none with h | ⟨j, h1, h2, h3, h4, h5⟩
    · left; exact h
    · right
      refine ⟨j, h1, h2, ?_, h4, h5⟩
      rw [← toInt32_small (data j) (hsmall j h1 h2)]
      exact h3

/-- Witness for C9: searching `data = [10, 11, 12]` for the feature range
`[11, 12)` finds the value 11. -/
theorem c9_binarySearchBin_terminates_and_sound_witness :
    ((0 : ℕ) ≤ 3 ∧ (∀ j, 0 ≤ j → j < 3 → (fun k => k + 10) j < 2147483648)) ∧
    ((∀ extra, bsbLoop (fun k => k + 10) 11 12 (3 - 0 + 1 + extra) 0 3 none =
        BinarySearchBin 0 3 (fun k => k + 10) 11 12) ∧
     (BinarySearchBin 0 3 (fun k => k + 10) 11 12 = -1 ∨
      ∃ j : ℕ, 0 ≤ j ∧ j < 3 ∧ (((j + 10 : ℕ) : ℤ) = BinarySearchBin 0 3 (fun k => k + 10) 11 12 ∧
        11 ≤ j + 10 ∧ j + 10 < 12))) :=
  ⟨⟨by decide, fun j h1 h2 => by show j + 10 < 2147483648; omega⟩,
   c9_binarySearchBin_terminates_and_sound 0 3 (fun k => k + 10) 11 12 (by decide)
     (fun j h1 h2 => by show j + 10 < 2147483648; omega)⟩

/-! ## `HistCollection` (lines 322–401)

Per-node histogram storage: `row_ptr_[nid]` maps a registered node to its row
of `data_`, with `uint32_t` max as the "not registered" sentinel. -/

/-- `kMax = std::numeric_limits<uint32_t>::max()`, the sentinel marking a node
with no histogram row. -/
def kMax : ℕ := 4294967295

/-- The state of `HistCollection<GradientSumT>` (lines 389–400). -/
structure HistCollection where
  nbins : ℕ
  n_nodes_added : ℕ
  contiguous_allocation : Bool
  data : List (List GPair)
  row_ptr : List ℕ

/-- `HistCollection::RowExists(nid)` (lines 343–346). -/
def HistCollection.RowExists (h : HistCollection) (nid : ℕ) : Bool :=
  decide (nid < h.row_ptr.length ∧ h.row_ptr.getD nid kMax ≠ kMax)

/-- `HistCollection::Init(nbins)` (lines 349–357): the backing storage is
dropped only when the bin count changed ("quite expensive operation, so let's
do this only once"); the per-node registrations are always cleared. -/
def HistCollection.Init (h : HistCollection) (nbins : ℕ) : HistCollection :=
  { h with
    nbins := nbins
    data := if h.nbins ≠ nbins then [] else h.data
    row_ptr := []
    n_nodes_added := 0 }

/-- `HistCollection::AddHistRow(nid)` (lines 360–373): grow `row_ptr_` with
the `kMax` sentinel as needed, fail (`CHECK_EQ(row_ptr_[nid], kMax)`) if the
node is already registered in this cycle, then point the node at the next
histogram row. -/
def HistCollection.AddHistRow (h : HistCollection) (nid : ℕ) : Option HistCollection :=
  let rp := if h.row_ptr.length ≤ nid
    then h.row_ptr ++ List.replicate (nid + 1 - h.row_ptr.length) kMax
    else h.row_ptr
  if rp.getD nid kMax ≠ kMax then none
  else
    let d := if h.data.length < nid + 1
      then h.data ++ List.replicate (nid + 1 - h.data.length) []
      else h.data
    some { h with
      row_ptr := rp.set nid h.n_nodes_added
      data := d
      n_nodes_added := h.n_nodes_added + 1 }

/-- `HistCollection::AllocateData(nid)` (lines 375–379): zero-fill the node's
backing array on first touch (deferred allocation). -/
def HistCollection.AllocateData (h : HistCollection) (nid : ℕ) : HistCollection :=
  if (h.data.getD (h.row_ptr.getD nid kMax) []).length = 0
  then { h with
    data := h.data.set (h.row_ptr.getD nid kMax) (List.replicate h.nbins ((0 : ℚ), (0 : ℚ))) }
  else h

theorem getD_replicate_self {α : Type} (k i : ℕ) (a : α) :
    (List.replicate k a).getD i a = a := by
  induction k generalizing i with
  | zero => simp
  | succ k ih =>
    cases i with
    | zero => simp [List.replicate]
    | succ j => simpa [List.replicate] using ih j

/-- C6: re-running `Init` with the same bin count is the identity on the whole
collection state (first conjunct) and in particular leaves the backing storage
`data_` untouched — no reallocation, no clearing (second conjunct, for any
state whose bin count already equals `n`, e.g. one that registered nodes after
the first `Init n`); yet registration is reset: afterwards no `nid` has a row
(third conjunct) and `AddHistRow nid` succeeds again without tripping its
`CHECK` (fourth conjunct). -/
theorem c6_init_same_nbins_keeps_storage (h : HistCollection) (n nid : ℕ)
    (hn : h.nbins = n) :
    (h.Init n).Init n = h.Init n ∧
    (h.Init n).data = h.data ∧
    (h.Init n).RowExists nid = false ∧
    ((h.Init n).AddHistRow nid).isSome = true := by
  refine ⟨?_, ?_, ?_, ?_⟩
  · simp [HistCollection.Init]
  · simp [HistCollection.Init, hn]
  · simp [HistCollection.Init, HistCollection.RowExists]
  · simp only [HistCollection.Init, HistCollection.AddHistRow]
    simp only [List.length_nil, Nat.zero_le, if_pos, List.nil_append, Nat.sub_zero]
    rw [if_neg (by simp [getD_replicate_self])]
    simp

/-- Witness for C6: a collection with 3 bins, one registered node with an
allocated histogram row; re-`Init(3)` keeps `data_` but resets registration. -/
theorem c6_init_same_nbins_keeps_storage_witness :
    ((⟨3, 1, false, [[(1, 1), (2, 2), (3, 3)]], [0]⟩ : HistCollection).nbins = 3) ∧
    (((⟨3, 1, false, [[(1, 1), (2, 2), (3, 3)]], [0]⟩ : HistCollection).Init 3).Init 3 =
      (⟨3, 1, false, [[(1, 1), (2, 2), (3, 3)]], [0]⟩ : HistCollection).Init 3 ∧
     ((⟨3, 1, false, [[(1, 1), (2, 2), (3, 3)]], [0]⟩ : HistCollection).Init 3).data =
      (⟨3, 1, false, [[(1, 1), (2, 2), (3, 3)]], [0]⟩ : HistCollection).data ∧
     ((⟨3, 1, false, [[(1, 1), (2, 2), (3, 3)]], [0]⟩ : HistCollection).Init 3).RowExists 0 =
      false ∧
     (((⟨3, 1, false, [[(1, 1), (2, 2), (3, 3)]], [0]⟩ : HistCollection).Init 3).AddHistRow
      0).isSome = true) :=
  ⟨rfl, c6_init_same_nbins_keeps_storage ⟨3, 1, false, [[(1, 1), (2, 2), (3, 3)]], [0]⟩ 3 0 rfl⟩

/-! ## `ParallelGHistBuilder` (lines 408–578)

Scheduling state for the nested-parallel histogram build.  A histogram is a
function `ℕ → GPair`; the builder's scratch collection `hist_buffer_` adds its
rows `0, 1, 2, …` in that order during `AllocateAdditionalHistograms`, so its
`row_ptr_` is the identity on the allocated rows and scratch row `idx` is
modelled directly as histogram `idx` of a scratch store. -/

/-- The zero gradient pair. -/
def gzero : GPair := ((0 : ℚ), (0 : ℚ))

/-- Modelled from the spec: `InitilizeHistByZeroes(hist, begin, end)` is only
declared in this header (lines 291–295, "fill a histogram by zeros"); its body
lives in `hist_util.cc`, which is not under `src/`. -/
def zeroFill (h : ℕ → GPair) (b e : ℕ) : ℕ → GPair :=
  fun i => if b ≤ i ∧ i < e then gzero else h i

/-- Modelled from the spec: `IncrementHist(dst, add, begin, end)` is only
declared in this header (lines 297–302, "Increment hist as dst += add in range
[begin, end)"). -/
def incrementHist (dst add : ℕ → GPair) (b e : ℕ) : ℕ → GPair :=
  fun i => if b ≤ i ∧ i < e then dst i + add i else dst i

/-- Modelled from the spec: the 2-D work space `BlockedSpace2d` lives in
`threading_utils.h`, which is not under `src/`.  Per the spec it enumerates,
for each unit of parallel work, the node the unit belongs to ("first
dimension") and the block of rows it covers, node-major; a unit is modelled as
the pair (node id, row block). -/
abbrev BlockedSpace2d := List (ℕ × List ℕ)

/-- `space.Size()`: the number of work units. -/
def spaceSize (space : BlockedSpace2d) : ℕ := space.length

/-- `space.GetFirstDimension(i)`: the node of unit `i`. -/
def getFirstDimension (space : BlockedSpace2d) (i : ℕ) : ℕ :=
  (space.getD i (0, [])).1

/-- The per-thread chunk size of `MatchThreadsToNodes` (line 491):
`space_size / nthreads + !!(space_size % nthreads)`. -/
def chunckSize (size nthreads : ℕ) : ℕ :=
  size / nthreads + (if size % nthreads = 0 then 0 else 1)

/-- Setting one entry of a flat boolean map to `true`. -/
def updB (m : ℕ → Bool) (k : ℕ) : ℕ → Bool := fun j => if j = k then true else m j

/-- `ParallelGHistBuilder::MatchThreadsToNodes` (lines 489–509): each thread
takes one contiguous chunk of work units and marks, in the flat
`threads_to_nids_map_` (slot `tid * nodes + nid`), every node between the
first dimension of its first and of its last unit. -/
def matchThreadsToNodes (nthreads nodes : ℕ) (space : BlockedSpace2d) : ℕ → Bool :=
  (List.range nthreads).foldl
    (fun m tid =>
      if chunckSize (spaceSize space) nthreads * tid < spaceSize space then
        (List.range' (getFirstDimension space (chunckSize (spaceSize space) nthreads * tid))
          (getFirstDimension space
              (min (chunckSize (spaceSize space) nthreads * tid +
                chunckSize (spaceSize space) nthreads) (spaceSize space) - 1) + 1 -
            getFirstDimension space (chunckSize (spaceSize space) nthreads * tid))).foldl
          (fun m2 nid => updB m2 (tid * nodes + nid)) m
      else m)
    (fun _ => false)

theorem foldl_updB_eq (K : List ℕ) (m : ℕ → Bool) (j : ℕ) :
    (K.foldl (fun m2 k => updB m2 k) m) j = (decide (j ∈ K) || m j) := by
  induction K generalizing m with
  | nil => simp
  | cons k K ih =>
    simp only [List.foldl_cons, ih, List.mem_cons]
    by_cases hjk : j = k
    · subst hjk; simp [updB]
    · simp [updB, hjk]

theorem foldl_mark_eq (T : List ℕ) (Keys : ℕ → List ℕ) (m : ℕ → Bool) (j : ℕ) :
    (T.foldl (fun m2 tid => (Keys tid).foldl (fun m3 k => updB m3 k) m2) m) j =
    (decide (∃ tid ∈ T, j ∈ Keys tid) || m j) := by
  induction T generalizing m with
  | nil => simp
  | cons t T ih =>
    simp only [List.foldl_cons, ih, foldl_updB_eq, List.mem_cons]
    by_cases hjt : j ∈ Keys t
    · simp only [decide_eq_true hjt, Bool.or_true]
      have : ∃ tid, (tid = t ∨ tid ∈ T) ∧ j ∈ Keys tid := ⟨t, Or.inl rfl, hjt⟩
      simp [this]
    · by_cases hT : ∃ tid ∈ T, j ∈ Keys tid
      · have : ∃ tid, (tid = t ∨ tid ∈ T) ∧ j ∈ Keys tid := by
          obtain ⟨tid, h1, h2⟩ := hT
          exact ⟨tid, Or.inr h1, h2⟩
        simp [hT, this]
      · have : ¬ ∃ tid, (tid = t ∨ tid ∈ T) ∧ j ∈ Keys tid := by
          rintro ⟨tid, h1 | h1, h2⟩
          · exact hjt (h1 ▸ h2)
          · exact hT ⟨tid, h1, h2⟩
        simp [hjt, hT, this]

/-- The key list marked by one thread in `MatchThreadsToNodes`. -/
def tidKeys (nthreads nodes : ℕ) (space : BlockedSpace2d) (tid : ℕ) : List ℕ :=
  if chunckSize (spaceSize space) nthreads * tid < spaceSize space then
    (List.range' (getFirstDimension space (chunckSize (spaceSize space) nthreads * tid))
      (getFirstDimension space
          (min (chunckSize (spaceSize space) nthreads * tid +
            chunckSize (spaceSize space) nthreads) (spaceSize space) - 1) + 1 -
        getFirstDimension space (chunckSize (spaceSize space) nthreads * tid))).map
      (fun nid => tid * nodes + nid)
  else []

theorem matchThreadsToNodes_eq (nthreads nodes : ℕ) (space : BlockedSpace2d) :
    matchThreadsToNodes nthreads nodes space =
    (List.range nthreads).foldl
      (fun m2 tid => ((tidKeys nthreads nodes space tid).foldl (fun m3 k => updB m3 k) m2))
      (fun _ => false) := by
  unfold matchThreadsToNodes tidKeys
  congr 1
  funext m tid
  split
  · rw [List.foldl_map]
  · rfl

/-- Membership characterization of the marking: slot `tid * nodes + nid` is
set iff thread `tid`'s chunk is non-empty and `nid` lies between the first
dimensions of the chunk's first and last units. -/
theorem matchThreadsToNodes_true_iff (nthreads nodes : ℕ) (space : BlockedSpace2d) (j : ℕ) :
    matchThreadsToNodes nthreads nodes space j = true ↔
    ∃ tid < nthreads, j ∈ tidKeys nthreads nodes space tid := by
  rw [matchThreadsToNodes_eq, foldl_mark_eq]
  simp [List.mem_range]

/-- The first unit of thread `tid`'s chunk (line 496). -/
def chunkBegin (size nthreads tid : ℕ) : ℕ := chunckSize size nthreads * tid

/-- One past the last unit of thread `tid`'s chunk (line 497). -/
def chunkEnd (size nthreads tid : ℕ) : ℕ :=
  min (chunkBegin size nthreads tid + chunckSize size nthreads) size

/-- The flat `threads_to_nids_map_` read at slot `tid * nodes + nid`. -/
def markedAt (nthreads nodes : ℕ) (space : BlockedSpace2d) (tid nid : ℕ) : Bool :=
  matchThreadsToNodes nthreads nodes space (tid * nodes + nid)

theorem chunckSize_pos (size nthreads : ℕ) (h : 0 < size) : 0 < chunckSize size nthreads := by
  unfold chunckSize
  rcases Nat.eq_zero_or_pos nthreads with h0 | h0
  · subst h0
    rw [Nat.mod_zero, Nat.div_zero, if_neg (by omega)]
    omega
  · rcases Nat.lt_or_ge size nthreads with hlt | hge
    · rw [Nat.mod_eq_of_lt hlt]
      have : size ≠ 0 := by omega
      simp [this]
    · have : 0 < size / nthreads := Nat.div_pos hge h0
      omega

theorem mem_tidKeys_iff (nthreads nodes : ℕ) (space : BlockedSpace2d) (tid j : ℕ) :
    j ∈ tidKeys nthreads nodes space tid ↔
    (chunkBegin (spaceSize space) nthreads tid < spaceSize space ∧
     ∃ nid, getFirstDimension space (chunkBegin (spaceSize space) nthreads tid) ≤ nid ∧
       nid ≤ getFirstDimension space (chunkEnd (spaceSize space) nthreads tid - 1) ∧
       j = tid * nodes + nid) := by
  unfold tidKeys chunkEnd chunkBegin
  split
  · next hlt =>
    simp only [List.mem_map, List.mem_range'_1, hlt, true_and]
    constructor
    · rintro ⟨nid, ⟨hge, hlt2⟩, rfl⟩
      exact ⟨nid, hge, by omega, rfl⟩
    · rintro ⟨nid, hge, hle, rfl⟩
      exact ⟨nid, ⟨hge, by omega⟩, rfl⟩
  · next hlt =>
    simp only [List.not_mem_nil, false_iff]
    rintro ⟨h1, -⟩
    exact hlt h1

theorem getFirstDimension_lt (space : BlockedSpace2d) (nodes : ℕ)
    (hn : ∀ u ∈ space, u.1 < nodes) (i : ℕ) (hi : i < spaceSize space) :
    getFirstDimension space i < nodes := by
  unfold getFirstDimension
  rw [List.getD_eq_getElem space (0, []) hi]
  exact hn _ (List.getElem_mem hi)

theorem slot_inj {N tid nid tid' nid' : ℕ} (h1 : nid < N) (h2 : nid' < N)
    (h : tid' * N + nid' = tid * N + nid) : tid' = tid ∧ nid' = nid := by
  have hN : 0 < N := by omega
  have d : ∀ t n, n < N → (t * N + n) / N = t := by
    intro t n hn
    rw [add_comm, Nat.add_mul_div_right _ _ hN, Nat.div_eq_of_lt hn, Nat.zero_add]
  have ht : tid' = tid := by
    have h' := congrArg (fun x => x / N) h
    simp only at h'
    rwa [d tid' nid' h2, d tid nid h1] at h'
  subst ht
  exact ⟨rfl, by omega⟩

/-- `threads_to_nids_map_[tid * nodes + nid]` is set iff thread `tid`'s chunk
is non-empty and `nid` lies between the first dimensions of the chunk's first
and last units. -/
theorem markedAt_true_iff (nthreads nodes : ℕ) (space : BlockedSpace2d) (tid nid : ℕ)
    (hnodes : ∀ u ∈ space, u.1 < nodes) (hnid : nid < nodes) :
    markedAt nthreads nodes space tid nid = true ↔
    (tid < nthreads ∧ chunkBegin (spaceSize space) nthreads tid < spaceSize space ∧
     getFirstDimension space (chunkBegin (spaceSize space) nthreads tid) ≤ nid ∧
     nid ≤ getFirstDimension space (chunkEnd (spaceSize space) nthreads tid - 1)) := by
  unfold markedAt
  rw [matchThreadsToNodes_true_iff]
  constructor
  · rintro ⟨tid', hlt', hmem⟩
    rw [mem_tidKeys_iff] at hmem
    obtain ⟨hb', nid', hge', hle', heq⟩ := hmem
    have hnid' : nid' < nodes := by
      have hend : chunkEnd (spaceSize space) nthreads tid' - 1 < spaceSize space := by
        have hcs : 0 < chunckSize (spaceSize space) nthreads :=
          chunckSize_pos _ _ (by unfold chunkBegin at hb'; omega)
        unfold chunkEnd chunkBegin at *
        omega
      have := getFirstDimension_lt space nodes hnodes _ hend
      omega
    obtain ⟨ht, hn⟩ := slot_inj hnid' hnid heq
    subst ht
    subst hn
    exact ⟨hlt', hb', hge', hle'⟩
  · rintro ⟨htid, hb, hge, hle⟩
    refine ⟨tid, htid, ?_⟩
    rw [mem_tidKeys_iff]
    exact ⟨hb, nid, hge, hle, rfl⟩

/-- Setting one entry of the pair-keyed map `tid_nid_to_hist_`. -/
def updP (m : ℕ × ℕ → Option ℤ) (k : ℕ × ℕ) (v : ℤ) : ℕ × ℕ → Option ℤ :=
  fun p => if p = k then some v else m p

/-- One step of the inner (per-thread) loop of `MatchNodeNidPairToHist`
(lines 541–550): state is (map, scratch counter, `first_hist`). -/
def matchStep (nodes : ℕ) (marked : ℕ → Bool) (nid : ℕ)
    (st : (ℕ × ℕ → Option ℤ) × ℕ × Bool) (tid : ℕ) : (ℕ × ℕ → Option ℤ) × ℕ × Bool :=
  if marked (tid * nodes + nid) then
    if st.2.2 then (updP st.1 (tid, nid) (-1), st.2.1, false)
    else (updP st.1 (tid, nid) (st.2.1 : ℤ), st.2.1 + 1, false)
  else st

/-- One step of the outer (per-node) loop of `MatchNodeNidPairToHist`:
run the inner loop with a fresh `first_hist = true`, keep map and counter. -/
def matchNodeStep (nthreads nodes : ℕ) (marked : ℕ → Bool)
    (acc : (ℕ × ℕ → Option ℤ) × ℕ) (nid : ℕ) : (ℕ × ℕ → Option ℤ) × ℕ :=
  (((List.range nthreads).foldl (matchStep nodes marked nid) (acc.1, acc.2, true)).1,
   ((List.range nthreads).foldl (matchStep nodes marked nid) (acc.1, acc.2, true)).2.1)

/-- `ParallelGHistBuilder::MatchNodeNidPairToHist` (lines 536–552): for each
node in order, the node's first marked thread is assigned the sentinel `-1`
(write straight into the target histogram) and every further marked thread the
next globally fresh scratch index; returns the final map and the total number
of scratch indices handed out. -/
def matchNodeNidPairToHist (nthreads nodes : ℕ) (marked : ℕ → Bool) :
    (ℕ × ℕ → Option ℤ) × ℕ :=
  (List.range nodes).foldl (matchNodeStep nthreads nodes marked) ((fun _ => none), 0)

/-- The number of marked threads for node `nid` among threads `0 .. t-1`;
at `t = nthreads` this is the node's thread count, and at a marked `t` it is
`t`'s rank in the node's marked-thread order. -/
def rankOf (nodes : ℕ) (marked : ℕ → Bool) (nid t : ℕ) : ℕ :=
  ((List.range t).filter (fun tid => marked (tid * nodes + nid))).length

/-- Scratch rows demanded by the nodes before `nid`:
`Σ_{k < nid} max (0, count k - 1)` (truncated subtraction). -/
def offOf (nthreads nodes : ℕ) (marked : ℕ → Bool) (nid : ℕ) : ℕ :=
  ((List.range nid).map (fun k => rankOf nodes marked k nthreads - 1)).sum

theorem rankOf_succ (nodes : ℕ) (marked : ℕ → Bool) (nid t : ℕ) :
    rankOf nodes marked nid (t + 1) =
    rankOf nodes marked nid t + (if marked (t * nodes + nid) = true then 1 else 0) := by
  unfold rankOf
  rw [List.range_succ, List.filter_append, List.length_append]
  by_cases h : marked (t * nodes + nid) = true
  · simp [List.filter, h]
  · simp [List.filter, h]

theorem rankOf_mono (nodes : ℕ) (marked : ℕ → Bool) (nid : ℕ) {t t' : ℕ} (h : t ≤ t') :
    rankOf nodes marked nid t ≤ rankOf nodes marked nid t' := by
  induction t' with
  | zero =>
    have ht : t = 0 := by omega
    subst ht
    exact le_refl _
  | succ t' ih =>
    rcases Nat.lt_or_ge t (t' + 1) with hlt | hge
    · have := ih (by omega)
      rw [rankOf_succ]
      split
      · omega
      · omega
    · have : t = t' + 1 := by omega
      subst this
      exact le_refl _

theorem rankOf_lt_of_marked (nodes : ℕ) (marked : ℕ → Bool) (nid : ℕ) {t t' : ℕ}
    (hm : marked (t * nodes + nid) = true) (h : t < t') :
    rankOf nodes marked nid t < rankOf nodes marked nid t' := by
  have h1 : rankOf nodes marked nid (t + 1) = rankOf nodes marked nid t + 1 := by
    rw [rankOf_succ, if_pos hm]
  have h2 := rankOf_mono nodes marked nid (show t + 1 ≤ t' by omega)
  omega

theorem offOf_succ (nthreads nodes : ℕ) (marked : ℕ → Bool) (n : ℕ) :
    offOf nthreads nodes marked (n + 1) =
    offOf nthreads nodes marked n + (rankOf nodes marked n nthreads - 1) := by
  unfold offOf
  rw [List.range_succ, List.map_append, List.sum_append]
  simp

theorem offOf_mono (nthreads nodes : ℕ) (marked : ℕ → Bool) {n n' : ℕ} (h : n ≤ n') :
    offOf nthreads nodes marked n ≤ offOf nthreads nodes marked n' := by
  induction n' with
  | zero =>
    have hn : n = 0 := by omega
    subst hn
    exact le_refl _
  | succ n' ih =>
    rcases Nat.lt_or_ge n (n' + 1) with hlt | hge
    · have := ih (by omega)
      rw [offOf_succ]
      omega
    · have : n = n' + 1 := by omega
      subst this
      exact le_refl _

/-- The interval of scratch indices handed to node `n` ends before the
interval of any later node begins. -/
theorem offOf_block_le (nthreads nodes : ℕ) (marked : ℕ → Bool) {n n' : ℕ} (h : n < n') :
    offOf nthreads nodes marked n + (rankOf nodes marked n nthreads - 1) ≤
    offOf nthreads nodes marked n' := by
  have h1 : offOf nthreads nodes marked (n + 1) =
      offOf nthreads nodes marked n + (rankOf nodes marked n nthreads - 1) :=
    offOf_succ nthreads nodes marked n
  have h2 := offOf_mono nthreads nodes marked (show n + 1 ≤ n' by omega)
  omega

/-- Complete description of one node's inner loop: starting from map `m0`,
counter `c0` and `first_hist = true`, after scanning threads `0 .. k-1` the
map sends each marked `(tid, nid)` with `tid < k` to `-1` (rank 0) or to
`c0 + rank - 1`, the counter advanced by `max (0, rank_k - 1)`, and
`first_hist` survives iff no thread was marked. -/
theorem matchStep_fold_spec (nodes : ℕ) (marked : ℕ → Bool) (nid : ℕ)
    (m0 : ℕ × ℕ → Option ℤ) (c0 : ℕ) (k : ℕ) :
    (∀ p, ((List.range k).foldl (matchStep nodes marked nid) (m0, c0, true)).1 p =
      if p.2 = nid ∧ p.1 < k ∧ marked (p.1 * nodes + nid) = true then
        (if rankOf nodes marked nid p.1 = 0 then some (-1)
         else some ((c0 + rankOf nodes marked nid p.1 - 1 : ℕ) : ℤ))
      else m0 p) ∧
    ((List.range k).foldl (matchStep nodes marked nid) (m0, c0, true)).2.1 =
      c0 + (rankOf nodes marked nid k - 1) ∧
    (((List.range k).foldl (matchStep nodes marked nid) (m0, c0, true)).2.2 = true ↔
      rankOf nodes marked nid k = 0) := by
  induction k with
  | zero =>
    refine ⟨fun p => ?_, ?_, ?_⟩
    · simp
    · simp [rankOf]
    · simp [rankOf]
  | succ k ih =>
    obtain ⟨ih1, ih2, ih3⟩ := ih
    rw [List.range_succ]
    simp only [List.foldl_append, List.foldl_cons, List.foldl_nil] at *
    set prev := (List.range k).foldl (matchStep nodes marked nid) (m0, c0, true) with hprev
    by_cases hm : marked (k * nodes + nid) = true
    · have hrsucc : rankOf nodes marked nid (k + 1) = rankOf nodes marked nid k + 1 := by
        rw [rankOf_succ, if_pos hm]
      by_cases hflag : prev.2.2 = true
      · have hrk : rankOf nodes marked nid k = 0 := ih3.mp hflag
        unfold matchStep
        rw [if_pos hm, if_pos hflag]
        refine ⟨fun p => ?_, ?_, ?_⟩
        · simp only [updP]
          by_cases hp : p = (k, nid)
          · subst hp
            dsimp only
            rw [if_pos (rfl : ((k, nid) : ℕ × ℕ) = (k, nid))]
            rw [if_pos (⟨rfl, Nat.lt_succ_self k, hm⟩ :
              nid = nid ∧ k < k + 1 ∧ marked (k * nodes + nid) = true)]
            rw [if_pos hrk]
          · rw [if_neg hp, ih1 p]
            by_cases hc : p.2 = nid ∧ p.1 < k ∧ marked (p.1 * nodes + nid) = true
            · have hc' : p.2 = nid ∧ p.1 < k + 1 ∧ marked (p.1 * nodes + nid) = true :=
                ⟨hc.1, Nat.lt_succ_of_lt hc.2.1, hc.2.2⟩
              rw [if_pos hc, if_pos hc']
            · rw [if_neg hc, if_neg ?_]
              rintro ⟨he1, he2, he3⟩
              rcases Nat.lt_or_ge p.1 k with h | h
              · exact hc ⟨he1, h, he3⟩
              · have hpk : p.1 = k := by omega
                exact hp (Prod.ext hpk he1)
        · rw [ih2, hrk, hrsucc, hrk]
        · simp [hrsucc]
      · have hrk : rankOf nodes marked nid k ≠ 0 := fun h =>
          hflag (ih3.mpr h)
        unfold matchStep
        rw [if_pos hm, if_neg hflag]
        refine ⟨fun p => ?_, ?_, ?_⟩
        · simp only [updP]
          by_cases hp : p = (k, nid)
          · subst hp
            dsimp only
            rw [if_pos (rfl : ((k, nid) : ℕ × ℕ) = (k, nid))]
            rw [if_pos (⟨rfl, Nat.lt_succ_self k, hm⟩ :
              nid = nid ∧ k < k + 1 ∧ marked (k * nodes + nid) = true)]
            rw [if_neg hrk, ih2]
            congr 1
            omega
          · rw [if_neg hp, ih1 p]
            by_cases hc : p.2 = nid ∧ p.1 < k ∧ marked (p.1 * nodes + nid) = true
            · have hc' : p.2 = nid ∧ p.1 < k + 1 ∧ marked (p.1 * nodes + nid) = true :=
                ⟨hc.1, Nat.lt_succ_of_lt hc.2.1, hc.2.2⟩
              rw [if_pos hc, if_pos hc']
            · rw [if_neg hc, if_neg ?_]
              rintro ⟨he1, he2, he3⟩
              rcases Nat.lt_or_ge p.1 k with h | h
              · exact hc ⟨he1, h, he3⟩
              · have hpk : p.1 = k := by omega
                exact hp (Prod.ext hpk he1)
        · dsimp only
          rw [ih2, hrsucc]
          omega
        · simp [hrsucc]
    · have hrsucc : rankOf nodes marked nid (k + 1) = rankOf nodes marked nid k := by
        rw [rankOf_succ, if_neg hm]
        omega
      unfold matchStep
      rw [if_neg hm]
      refine ⟨fun p => ?_, ?_, ?_⟩
      · rw [ih1 p]
        by_cases hc : p.2 = nid ∧ p.1 < k ∧ marked (p.1 * nodes + nid) = true
        · have hc' : p.2 = nid ∧ p.1 < k + 1 ∧ marked (p.1 * nodes + nid) = true :=
            ⟨hc.1, Nat.lt_succ_of_lt hc.2.1, hc.2.2⟩
          rw [if_pos hc, if_pos hc']
        · rw [if_neg hc, if_neg ?_]
          rintro ⟨he1, he2, he3⟩
          rcases Nat.lt_or_ge p.1 k with h | h
          · exact hc ⟨he1, h, he3⟩
          · have hpk : p.1 = k := by omega
            rw [hpk] at he3
            exact hm he3
      · rw [ih2, hrsucc]
      · rw [ih3, hrsucc]

/-- Full description of `MatchNodeNidPairToHist`: per node, the first marked
thread is sent to `-1` and the marked thread of rank `r ≥ 1` to scratch index
`offOf nid + r - 1`; unmarked or out-of-range pairs are absent; the final
counter is the total scratch demand `offOf nodes`. -/
theorem matchNodeNidPairToHist_spec (nthreads nodes : ℕ) (marked : ℕ → Bool) :
    (∀ p : ℕ × ℕ, (matchNodeNidPairToHist nthreads nodes marked).1 p =
      if p.2 < nodes ∧ p.1 < nthreads ∧ marked (p.1 * nodes + p.2) = true then
        (if rankOf nodes marked p.2 p.1 = 0 then some (-1)
         else some ((offOf nthreads nodes marked p.2 + rankOf nodes marked p.2 p.1 - 1 : ℕ) : ℤ))
      else none) ∧
    (matchNodeNidPairToHist nthreads nodes marked).2 = offOf nthreads nodes marked nodes := by
  unfold matchNodeNidPairToHist
  suffices h : ∀ n,
      (∀ p : ℕ × ℕ,
        ((List.range n).foldl (matchNodeStep nthreads nodes marked) ((fun _ => none), 0)).1 p =
        if p.2 < n ∧ p.1 < nthreads ∧ marked (p.1 * nodes + p.2) = true then
          (if rankOf nodes marked p.2 p.1 = 0 then some (-1)
           else some ((offOf nthreads nodes marked p.2 + rankOf nodes marked p.2 p.1 - 1 : ℕ) : ℤ))
        else none) ∧
      ((List.range n).foldl (matchNodeStep nthreads nodes marked) ((fun _ => none), 0)).2 =
        offOf nthreads nodes marked n by
    exact h nodes
  intro n
  induction n with
  | zero =>
    refine ⟨fun p => ?_, ?_⟩
    · simp
    · simp [offOf]
  | succ n ih =>
    obtain ⟨ih1, ih2⟩ := ih
    rw [List.range_succ]
    simp only [List.foldl_append, List.foldl_cons, List.foldl_nil]
    set acc := (List.range n).foldl (matchNodeStep nthreads nodes marked) ((fun _ => none), 0)
      with hacc
    obtain ⟨s1, s2, s3⟩ := matchStep_fold_spec nodes marked n acc.1 acc.2 nthreads
    refine ⟨fun p => ?_, ?_⟩
    · obtain ⟨pt, pn⟩ := p
      show ((List.range nthreads).foldl (matchStep nodes marked n) (acc.1, acc.2, true)).1
          (pt, pn) = _
      rw [s1 (pt, pn)]
      dsimp only
      by_cases hpn : pn = n
      · subst hpn
        by_cases hpm : pt < nthreads ∧ marked (pt * nodes + pn) = true
        · have hL : pn = pn ∧ pt < nthreads ∧ marked (pt * nodes + pn) = true :=
            ⟨rfl, hpm.1, hpm.2⟩
          have hR : pn < pn + 1 ∧ pt < nthreads ∧ marked (pt * nodes + pn) = true :=
            ⟨Nat.lt_succ_self pn, hpm.1, hpm.2⟩
          rw [if_pos hL, if_pos hR, ih2]
        · rw [if_neg ?_, if_neg ?_, ih1 (pt, pn)]
          · dsimp only
            rw [if_neg ?_]
            rintro ⟨h1, -⟩
            omega
          · rintro ⟨-, h2, h3⟩
            exact hpm ⟨h2, h3⟩
          · rintro ⟨-, h2, h3⟩
            exact hpm ⟨h2, h3⟩
      · rw [if_neg ?_, ih1 (pt, pn)]
        · dsimp only
          by_cases hc : pn < n ∧ pt < nthreads ∧ marked (pt * nodes + pn) = true
          · have hR : pn < n + 1 ∧ pt < nthreads ∧ marked (pt * nodes + pn) = true :=
              ⟨Nat.lt_succ_of_lt hc.1, hc.2.1, hc.2.2⟩
            rw [if_pos hc, if_pos hR]
          · rw [if_neg hc, if_neg ?_]
            rintro ⟨h1, h2, h3⟩
            exact hc ⟨by omega, h2, h3⟩
        · rintro ⟨h1, -⟩
          exact hpn h1
    · show ((List.range nthreads).foldl (matchStep nodes marked n) (acc.1, acc.2, true)).2.1 = _
      rw [s2, ih2, offOf_succ]

/-- A histogram reference: the caller-supplied target of a node (`idx = -1`)
or a scratch row of `hist_buffer_`. -/
inductive HistRef
  | target (nid : ℕ)
  | scratch (idx : ℕ)
deriving DecidableEq

/-- The histogram denoted by a `tid_nid_to_hist_` entry (lines 452 and 475):
`idx == -1 ? targeted_hists_[nid] : hist_buffer_[idx]`. -/
def refOf (idx : ℤ) (nid : ℕ) : HistRef :=
  if idx = -1 then .target nid else .scratch idx.toNat

/-- The mutable state of one build pass: the `hist_was_used_` flags, the
caller-supplied target histograms, the scratch rows of `hist_buffer_`, and
which scratch rows are allocated (`data_[idx].size() != 0`). -/
structure PassState where
  used : ℕ × ℕ → Bool
  target : ℕ → ℕ → GPair
  scratch : ℕ → ℕ → GPair
  alloc : ℕ → Bool

def readRef (st : PassState) : HistRef → ℕ → GPair
  | .target nid => st.target nid
  | .scratch i => st.scratch i

def writeRef (st : PassState) : HistRef → (ℕ → GPair) → PassState
  | .target nid, h => { st with target := fun n => if n = nid then h else st.target n }
  | .scratch i, h => { st with scratch := fun j => if j = i then h else st.scratch j }

/-- The effect of `hist_buffer_.AllocateData(idx)` inside `GetInitializedHist`
(line 450): zero-fill scratch row `idx` on its first allocation. -/
def allocScratch (st : PassState) (i nbins : ℕ) : PassState :=
  if st.alloc i then st
  else { st with
    scratch := fun j => if j = i then zeroFill (st.scratch i) 0 nbins else st.scratch j
    alloc := fun j => if j = i then true else st.alloc j }

/-- `ParallelGHistBuilder::GetInitializedHist(tid, nid)` (lines 444–460) as a
state transformer: look up the pair's assigned histogram, allocate the scratch
row if the assignment is non-negative, and zero-fill the histogram on the
pair's first use, marking `hist_was_used_`.  Looking up an unregistered pair
throws in the source (`std::map::at`); the model returns the state unchanged
there, and every lookup of the modelled pass is proven registered. -/
def getInitHist (mapF : ℕ × ℕ → Option ℤ) (nbins : ℕ) (st : PassState) (tid nid : ℕ) :
    PassState :=
  match mapF (tid, nid) with
  | none => st
  | some idx =>
    let st1 := if 0 ≤ idx then allocScratch st idx.toNat nbins else st
    if st1.used (tid, nid) then st1
    else
      let st2 := writeRef st1 (refOf idx nid) (zeroFill (readRef st1 (refOf idx nid)) 0 nbins)
      { st2 with used := fun p => if p = (tid, nid) then true else st2.used p }

/-- Modelled from the spec: the histogram aggregation kernel
(`GHistBuilder::BuildHist`, declared at lines 592–595; its body lives in
`hist_util.cc`, not under `src/`): each listed row's gradient pair is added to
the bin its entry maps to. -/
def accumulate (gpair : ℕ → GPair) (binOf : ℕ → ℕ) (rows : List ℕ) (h : ℕ → GPair) :
    ℕ → GPair :=
  rows.foldl (fun h2 r => fun b => if b = binOf r then h2 b + gpair r else h2 b) h

/-- One work unit executed by thread `tid`: `GetInitializedHist(tid, nid)`
followed by the aggregation kernel over the unit's rows, writing through the
returned histogram view. -/
def processUnit (mapF : ℕ × ℕ → Option ℤ) (nbins : ℕ) (gpair : ℕ → GPair) (binOf : ℕ → ℕ)
    (st : PassState) (tid : ℕ) (u : ℕ × List ℕ) : PassState :=
  match mapF (tid, u.1) with
  | none => st
  | some idx =>
    let st1 := getInitHist mapF nbins st tid u.1
    writeRef st1 (refOf idx u.1) (accumulate gpair binOf u.2 (readRef st1 (refOf idx u.1)))

/-- The aggregation phase: every thread `tid < nthreads` processes, in order,
the units of its contiguous chunk — the same chunking `MatchThreadsToNodes`
assumed.  Threads own disjoint histograms (proven below), so the parallel
execution is modelled by this sequential order. -/
def runPass (mapF : ℕ × ℕ → Option ℤ) (nbins nthreads : ℕ) (space : BlockedSpace2d)
    (gpair : ℕ → GPair) (binOf : ℕ → ℕ) (st0 : PassState) : PassState :=
  ((List.range nthreads).flatMap (fun tid =>
      ((space.drop (chunkBegin (spaceSize space) nthreads tid)).take
        (chunckSize (spaceSize space) nthreads)).map (fun u => (tid, u)))).foldl
    (fun st x => processUnit mapF nbins gpair binOf st x.1 x.2) st0

/-- `ParallelGHistBuilder::ReduceHist(nid, begin, end)` (lines 463–487): add
every used thread's partial row for `nid` into the target row over
`[begin, end)`, skipping the thread whose row is the target itself
(`dst.data() != src.data()`); when no thread touched the node, zero-fill the
target range instead so that no stale data survives. -/
def reduceStep (mapF : ℕ × ℕ → Option ℤ) (st : PassState) (nid b0 b1 : ℕ)
    (acc : (ℕ → GPair) × Bool) (tid : ℕ) : (ℕ → GPair) × Bool :=
  if st.used (tid, nid) then
    match mapF (tid, nid) with
    | some idx =>
      if refOf idx nid = HistRef.target nid then (acc.1, true)
      else (incrementHist acc.1 (st.scratch idx.toNat) b0 b1, true)
    | none => (acc.1, true)
  else acc

def reduceHist (mapF : ℕ × ℕ → Option ℤ) (nthreads : ℕ) (st : PassState)
    (nid b0 b1 : ℕ) : PassState :=
  let res := (List.range nthreads).foldl (reduceStep mapF st nid b0 b1) (st.target nid, false)
  { st with target := fun n => if n = nid then
      (if res.2 then res.1 else zeroFill res.1 b0 b1) else st.target n }

/-- `ReduceHist(nid, 0, nbins)` called for every node. -/
def reduceAll (mapF : ℕ × ℕ → Option ℤ) (nthreads nodes nbins : ℕ) (st : PassState) :
    PassState :=
  (List.range nodes).foldl (fun st2 nid => reduceHist mapF nthreads st2 nid 0 nbins) st

/-- C4: for a node on which no thread accumulated during the current pass
(every `hist_was_used_` flag for the node is false — zero assigned rows or
zero touching threads), `ReduceHist(nid, begin, end)` leaves the target
histogram all zero over `[begin, end)`: stale data from a previous pass never
survives in the target. -/
theorem c4_reduceHist_zero_fills_untouched_node (mapF : ℕ × ℕ → Option ℤ)
    (nthreads : ℕ) (st : PassState) (nid b0 b1 : ℕ)
    (hunused : ∀ tid < nthreads, st.used (tid, nid) = false) :
    ∀ b, b0 ≤ b → b < b1 → (reduceHist mapF nthreads st nid b0 b1).target nid b = gzero := by
  intro b hb0 hb1
  unfold reduceHist
  have key : ∀ l : List ℕ, (∀ tid ∈ l, tid < nthreads) →
      ∀ acc : (ℕ → GPair) × Bool, l.foldl (reduceStep mapF st nid b0 b1) acc = acc := by
    intro l hl
    induction l with
    | nil => intro acc; rfl
    | cons t l ih =>
      intro acc
      rw [List.foldl_cons]
      have ht : st.used (t, nid) = false := hunused t (hl t (by simp))
      have hstep : reduceStep mapF st nid b0 b1 acc t = acc := by
        unfold reduceStep
        rw [if_neg (by simp [ht])]
      rw [hstep]
      exact ih (fun x hx => hl x (by simp [hx])) acc
  rw [key (List.range nthreads) (fun x hx => List.mem_range.mp hx) (st.target nid, false)]
  simp [zeroFill, hb0, hb1]

/-- Witness for C4: two threads, neither of which touched node 0; the stale
target value `(5, 5)` is replaced by zero on the queried bin. -/
theorem c4_reduceHist_zero_fills_untouched_node_witness :
    ((∀ tid < 2, (⟨fun _ => false, fun _ _ => ((5 : ℚ), (5 : ℚ)), fun _ _ => ((7 : ℚ), (7 : ℚ)),
        fun _ => false⟩ : PassState).used (tid, 0) = false) ∧ 0 ≤ 1 ∧ 1 < 3) ∧
    (reduceHist (fun _ => none) 2 ⟨fun _ => false, fun _ _ => ((5 : ℚ), (5 : ℚ)),
      fun _ _ => ((7 : ℚ), (7 : ℚ)), fun _ => false⟩ 0 0 3).target 0 1 = gzero :=
  ⟨⟨fun _ _ => rfl, by decide, by decide⟩,
   c4_reduceHist_zero_fills_untouched_node (fun _ => none) 2
     ⟨fun _ => false, fun _ _ => ((5 : ℚ), (5 : ℚ)), fun _ _ => ((7 : ℚ), (7 : ℚ)),
      fun _ => false⟩ 0 0 3 (fun _ _ => rfl) 1 (by decide) (by decide)⟩

/-- With units listed node-major (monotone first dimension), earlier positions
carry nodes no larger. -/
theorem fd_mono (space : BlockedSpace2d)
    (hmono : List.Chain' (· ≤ ·) (space.map Prod.fst)) {i j : ℕ}
    (hij : i ≤ j) (hj : j < spaceSize space) :
    getFirstDimension space i ≤ getFirstDimension space j := by
  rcases Nat.eq_or_lt_of_le hij with rfl | hlt
  · exact le_refl _
  · have hp := (List.chain'_iff_pairwise).mp hmono
    rw [List.pairwise_iff_getElem] at hp
    have hi : i < spaceSize space := by omega
    have hmain := hp i j (by simpa [spaceSize] using hi) (by simpa [spaceSize] using hj) hlt
    unfold getFirstDimension
    rw [List.getD_eq_getElem space (0, []) hi, List.getD_eq_getElem space (0, []) hj]
    simpa using hmain

/-- The units of thread `tid`'s chunk. -/
def chunkUnits (nthreads : ℕ) (space : BlockedSpace2d) (tid : ℕ) : List (ℕ × List ℕ) :=
  (space.drop (chunkBegin (spaceSize space) nthreads tid)).take
    (chunckSize (spaceSize space) nthreads)

/-- A unit belongs to thread `tid`'s chunk iff it sits at a position of the
space between the chunk's bounds. -/
theorem mem_chunkUnits_iff (nthreads : ℕ) (space : BlockedSpace2d) (tid : ℕ)
    (u : ℕ × List ℕ) :
    u ∈ chunkUnits nthreads space tid ↔
    ∃ j, chunkBegin (spaceSize space) nthreads tid ≤ j ∧
      j < chunkEnd (spaceSize space) nthreads tid ∧ j < spaceSize space ∧
      space.getD j (0, []) = u := by
  unfold chunkUnits chunkEnd
  rw [List.mem_iff_getElem]
  constructor
  · rintro ⟨k, hk, hget⟩
    have hss : spaceSize space = space.length := rfl
    have hlen : k < chunckSize (spaceSize space) nthreads ∧
        chunkBegin (spaceSize space) nthreads tid + k < space.length := by
      simp only [List.length_take, List.length_drop] at hk
      omega
    refine ⟨chunkBegin (spaceSize space) nthreads tid + k, by omega, ?_, ?_, ?_⟩
    · have : space.length = spaceSize space := rfl
      omega
    · exact hlen.2
    · rw [List.getD_eq_getElem space (0, []) hlen.2, ← hget]
      rw [List.getElem_take, List.getElem_drop]
  · rintro ⟨j, hj1, hj2, hj3, hget⟩
    have hidx : chunkBegin (spaceSize space) nthreads tid +
        (j - chunkBegin (spaceSize space) nthreads tid) = j := by omega
    have hss : spaceSize space = space.length := rfl
    refine ⟨j - chunkBegin (spaceSize space) nthreads tid, ?_, ?_⟩
    · simp only [List.length_take, List.length_drop]
      omega
    · rw [List.getElem_take, List.getElem_drop]
      rw [List.getD_eq_getElem space (0, []) (show j < space.length from hj3)] at hget
      simp only [hidx]
      exact hget

/-- A thread is marked for every node of a unit in its chunk. -/
theorem touch_implies_marked (nthreads nodes : ℕ) (space : BlockedSpace2d)
    (hmono : List.Chain' (· ≤ ·) (space.map Prod.fst))
    (hnodes : ∀ u ∈ space, u.1 < nodes) (tid : ℕ) (htid : tid < nthreads)
    (u : ℕ × List ℕ) (hu : u ∈ chunkUnits nthreads space tid) :
    markedAt nthreads nodes space tid u.1 = true := by
  obtain ⟨j, hj1, hj2, hj3, hget⟩ := (mem_chunkUnits_iff nthreads space tid u).mp hu
  have hfd : getFirstDimension space j = u.1 := by
    unfold getFirstDimension
    rw [hget]
  have hnid : u.1 < nodes := by
    rw [← hfd]
    exact getFirstDimension_lt space nodes hnodes j hj3
  rw [markedAt_true_iff nthreads nodes space tid u.1 hnodes hnid]
  have hce_le : chunkEnd (spaceSize space) nthreads tid ≤ spaceSize space := by
    unfold chunkEnd
    omega
  refine ⟨htid, by omega, ?_, ?_⟩
  · rw [← hfd]
    exact fd_mono space hmono hj1 hj3
  · rw [← hfd]
    apply fd_mono space hmono (show j ≤ chunkEnd (spaceSize space) nthreads tid - 1 by omega)
    omega

/-- Conversely, a thread marked for a node that owns at least one unit has one
of that node's units in its chunk. -/
theorem marked_implies_touch (nthreads nodes : ℕ) (space : BlockedSpace2d)
    (hmono : List.Chain' (· ≤ ·) (space.map Prod.fst))
    (hnodes : ∀ u ∈ space, u.1 < nodes) (tid nid : ℕ) (hnid : nid < nodes)
    (hrun : ∃ j, j < spaceSize space ∧ getFirstDimension space j = nid)
    (hm : markedAt nthreads nodes space tid nid = true) :
    ∃ u ∈ chunkUnits nthreads space tid, u.1 = nid := by
  rw [markedAt_true_iff nthreads nodes space tid nid hnodes hnid] at hm
  obtain ⟨htid, hb, hge, hle⟩ := hm
  obtain ⟨j0, hj0, hfd0⟩ := hrun
  have hcs : 0 < chunckSize (spaceSize space) nthreads := chunckSize_pos _ _ (by omega)
  have hcb_lt_ce : chunkBegin (spaceSize space) nthreads tid <
      chunkEnd (spaceSize space) nthreads tid := by
    unfold chunkEnd
    omega
  have hce_le : chunkEnd (spaceSize space) nthreads tid ≤ spaceSize space := by
    unfold chunkEnd
    omega
  have hce1 : chunkEnd (spaceSize space) nthreads tid - 1 < spaceSize space := by omega
  have pick : ∀ j, chunkBegin (spaceSize space) nthreads tid ≤ j →
      j < chunkEnd (spaceSize space) nthreads tid → j < spaceSize space →
      getFirstDimension space j = nid →
      ∃ u ∈ chunkUnits nthreads space tid, u.1 = nid := by
    intro j h1 h2 h3 h4
    refine ⟨space.getD j (0, []), ?_, h4⟩
    rw [mem_chunkUnits_iff]
    exact ⟨j, h1, h2, h3, rfl⟩
  rcases Nat.lt_or_ge j0 (chunkBegin (spaceSize space) nthreads tid) with hcase | hcase
  · have h1 := fd_mono space hmono (Nat.le_of_lt hcase) hb
    exact pick (chunkBegin (spaceSize space) nthreads tid) (le_refl _) hcb_lt_ce hb (by omega)
  rcases Nat.lt_or_ge j0 (chunkEnd (spaceSize space) nthreads tid) with hcase2 | hcase2
  · exact pick j0 hcase hcase2 hj0 hfd0
  · have h1 := fd_mono space hmono
      (show chunkEnd (spaceSize space) nthreads tid - 1 ≤ j0 by omega) hj0
    exact pick (chunkEnd (spaceSize space) nthreads tid - 1) (by omega) (by omega) hce1 (by omega)

/-- The chunks jointly cover the whole space: `chunckSize * nthreads ≥ size`. -/
theorem chunckSize_covers (size nthreads : ℕ) (hT : 0 < nthreads) :
    size ≤ chunckSize size nthreads * nthreads := by
  unfold chunckSize
  rcases Nat.eq_zero_or_pos (size % nthreads) with h0 | h0
  · rw [if_pos h0, Nat.add_zero]
    exact Nat.le_of_eq (Nat.div_mul_cancel (Nat.dvd_of_mod_eq_zero h0)).symm
  · rw [if_neg (by omega), Nat.add_mul, Nat.one_mul, Nat.mul_comm]
    have e := Nat.div_add_mod size nthreads
    have m : size % nthreads < nthreads := Nat.mod_lt _ hT
    omega

/-- Every unit position has an owning thread. -/
theorem exists_owner_thread (nthreads : ℕ) (space : BlockedSpace2d) (hT : 0 < nthreads)
    (j : ℕ) (hj : j < spaceSize space) :
    ∃ tid < nthreads, chunkBegin (spaceSize space) nthreads tid ≤ j ∧
      j < chunkEnd (spaceSize space) nthreads tid := by
  have hcs : 0 < chunckSize (spaceSize space) nthreads := chunckSize_pos _ _ (by omega)
  have hcov := chunckSize_covers (spaceSize space) nthreads hT
  have e := Nat.div_add_mod j (chunckSize (spaceSize space) nthreads)
  have m : j % chunckSize (spaceSize space) nthreads < chunckSize (spaceSize space) nthreads :=
    Nat.mod_lt _ hcs
  refine ⟨j / chunckSize (spaceSize space) nthreads, ?_, ?_, ?_⟩
  · apply Nat.div_lt_of_lt_mul
    have hcomm : chunckSize (spaceSize space) nthreads * nthreads =
        nthreads * chunckSize (spaceSize space) nthreads := Nat.mul_comm _ _
    omega
  · unfold chunkBegin
    omega
  · unfold chunkEnd chunkBegin
    omega

/-- Per-bin sum of the gradient pairs of the rows whose entry maps to `b`. -/
def rowsSum (gpair : ℕ → GPair) (binOf : ℕ → ℕ) (rows : List ℕ) (b : ℕ) : GPair :=
  ((rows.filter (fun r => decide (binOf r = b))).map gpair).sum

theorem rowsSum_cons (gpair : ℕ → GPair) (binOf : ℕ → ℕ) (r : ℕ) (rs : List ℕ) (b : ℕ) :
    rowsSum gpair binOf (r :: rs) b =
    (if binOf r = b then gpair r else 0) + rowsSum gpair binOf rs b := by
  unfold rowsSum
  by_cases hb : binOf r = b
  · simp [List.filter_cons, hb]
  · simp [List.filter_cons, hb]

/-- The aggregation kernel adds, bin by bin, exactly the rows' per-bin sum. -/
theorem accumulate_apply (gpair : ℕ → GPair) (binOf : ℕ → ℕ) (rows : List ℕ)
    (h : ℕ → GPair) (b : ℕ) :
    accumulate gpair binOf rows h b = h b + rowsSum gpair binOf rows b := by
  induction rows generalizing h with
  | nil => simp [accumulate, rowsSum]
  | cons r rs ih =>
    unfold accumulate at *
    rw [List.foldl_cons, ih, rowsSum_cons]
    by_cases hb : binOf r = b
    · rw [if_pos hb, if_pos hb.symm, add_assoc]
    · rw [if_neg hb, if_neg (fun hbb => hb hbb.symm), zero_add]

/-- A flattened work item of the pass: (thread, (node, rows)). -/
abbrev PassItem := ℕ × ℕ × List ℕ

/-- Thread `tid` executed at least one unit of node `nid` among the items. -/
def pairTouched (P : List PassItem) (tid nid : ℕ) : Prop :=
  ∃ x ∈ P, x.1 = tid ∧ x.2.1 = nid

/-- The partial histogram contributed by the pair `(tid, nid)`. -/
def pairContrib (gpair : ℕ → GPair) (binOf : ℕ → ℕ) (P : List PassItem)
    (tid nid b : ℕ) : GPair :=
  ((P.filter (fun x => decide (x.1 = tid ∧ x.2.1 = nid))).map
    (fun x => rowsSum gpair binOf x.2.2 b)).sum

theorem pairContrib_nil (gpair : ℕ → GPair) (binOf : ℕ → ℕ) (tid nid b : ℕ) :
    pairContrib gpair binOf [] tid nid b = 0 := rfl

theorem pairContrib_append_one (gpair : ℕ → GPair) (binOf : ℕ → ℕ) (P : List PassItem)
    (x : PassItem) (tid nid b : ℕ) :
    pairContrib gpair binOf (P ++ [x]) tid nid b =
    pairContrib gpair binOf P tid nid b +
      (if x.1 = tid ∧ x.2.1 = nid then rowsSum gpair binOf x.2.2 b else 0) := by
  unfold pairContrib
  rw [List.filter_append, List.map_append, List.sum_append]
  by_cases hx : x.1 = tid ∧ x.2.1 = nid
  · simp [List.filter_cons, hx]
  · simp [List.filter_cons, hx]

theorem pairContrib_of_not_touched (gpair : ℕ → GPair) (binOf : ℕ → ℕ)
    (P : List PassItem) (tid nid b : ℕ) (h : ¬ pairTouched P tid nid) :
    pairContrib gpair binOf P tid nid b = 0 := by
  unfold pairContrib
  have hfil : P.filter (fun x => decide (x.1 = tid ∧ x.2.1 = nid)) = [] := by
    rw [List.filter_eq_nil_iff]
    intro x hx hdec
    exact h ⟨x, hx, of_decide_eq_true hdec⟩
  rw [hfil]
  rfl

theorem pairTouched_append_one (P : List PassItem) (x : PassItem) (tid nid : ℕ) :
    pairTouched (P ++ [x]) tid nid ↔
    pairTouched P tid nid ∨ (x.1 = tid ∧ x.2.1 = nid) := by
  unfold pairTouched
  constructor
  · rintro ⟨y, hy, h2⟩
    rcases List.mem_append.mp hy with hy' | hy'
    · exact Or.inl ⟨y, hy', h2⟩
    · have hyx : y = x := List.mem_singleton.mp hy'
      subst hyx
      exact Or.inr h2
  · rintro (⟨y, hy, h2⟩ | h2)
    · exact ⟨y, List.mem_append.mpr (Or.inl hy), h2⟩
    · exact ⟨x, List.mem_append.mpr (Or.inr (List.mem_singleton.mpr rfl)), h2⟩

theorem refOf_minus_one (nid : ℕ) : refOf (-1) nid = HistRef.target nid := by
  simp [refOf]

theorem refOf_nonneg (idx : ℤ) (nid : ℕ) (h : 0 ≤ idx) :
    refOf idx nid = HistRef.scratch idx.toNat := by
  unfold refOf
  rw [if_neg (by omega)]

theorem readRef_writeRef_same (st : PassState) (r : HistRef) (h : ℕ → GPair) :
    readRef (writeRef st r h) r = h := by
  cases r <;> simp [readRef, writeRef]

theorem readRef_writeRef_ne (st : PassState) (r r' : HistRef) (h : ℕ → GPair)
    (hne : r' ≠ r) : readRef (writeRef st r h) r' = readRef st r' := by
  cases r with
  | target nid =>
    cases r' with
    | target n' =>
      have : n' ≠ nid := fun he => hne (by rw [he])
      simp [readRef, writeRef, this]
    | scratch i' => simp [readRef, writeRef]
  | scratch i =>
    cases r' with
    | target n' => simp [readRef, writeRef]
    | scratch i' =>
      have : i' ≠ i := fun he => hne (by rw [he])
      simp [readRef, writeRef, this]

theorem used_writeRef (st : PassState) (r : HistRef) (h : ℕ → GPair) :
    (writeRef st r h).used = st.used := by
  cases r <;> rfl

theorem alloc_writeRef (st : PassState) (r : HistRef) (h : ℕ → GPair) :
    (writeRef st r h).alloc = st.alloc := by
  cases r <;> rfl

theorem scratch_writeRef_target (st : PassState) (nid : ℕ) (h : ℕ → GPair) :
    (writeRef st (HistRef.target nid) h).scratch = st.scratch := rfl

theorem target_writeRef_scratch (st : PassState) (i : ℕ) (h : ℕ → GPair) :
    (writeRef st (HistRef.scratch i) h).target = st.target := rfl

theorem allocScratch_used (st : PassState) (i nb : ℕ) :
    (allocScratch st i nb).used = st.used := by
  unfold allocScratch
  split <;> rfl

theorem allocScratch_target (st : PassState) (i nb : ℕ) :
    (allocScratch st i nb).target = st.target := by
  unfold allocScratch
  split <;> rfl

theorem allocScratch_alloc (st : PassState) (i nb j : ℕ) :
    (allocScratch st i nb).alloc j = if j = i then true else st.alloc j := by
  unfold allocScratch
  split
  · next h =>
    by_cases hj : j = i
    · subst hj
      rw [if_pos rfl, h]
    · rw [if_neg hj]
  · by_cases hj : j = i
    · subst hj
      simp
    · simp [hj]

theorem allocScratch_scratch_ne (st : PassState) (i nb j : ℕ) (hj : j ≠ i) :
    (allocScratch st i nb).scratch j = st.scratch j := by
  unfold allocScratch
  split
  · rfl
  · simp [hj]

theorem allocScratch_scratch_self (st : PassState) (i nb b : ℕ) (hb : b < nb) :
    (allocScratch st i nb).scratch i b =
    if st.alloc i = true then st.scratch i b else gzero := by
  unfold allocScratch
  split
  · rfl
  · show (if i = i then zeroFill (st.scratch i) 0 nb else st.scratch i) b = gzero
    rw [if_pos rfl]
    simp [zeroFill, hb]

theorem readRef_allocScratch_ne (st : PassState) (i nb : ℕ) (r : HistRef)
    (hr : r ≠ HistRef.scratch i) : readRef (allocScratch st i nb) r = readRef st r := by
  cases r with
  | target n =>
    show (allocScratch st i nb).target n = st.target n
    rw [allocScratch_target]
  | scratch j =>
    have hj : j ≠ i := fun he => hr (by rw [he])
    show (allocScratch st i nb).scratch j = st.scratch j
    exact allocScratch_scratch_ne st i nb j hj

theorem readRef_congr_fields (st1 st2 : PassState) (ht : st1.target = st2.target)
    (hs : st1.scratch = st2.scratch) (r : HistRef) : readRef st1 r = readRef st2 r := by
  cases r <;> simp [readRef, ht, hs]

/-- The complete effect of `GetInitializedHist(tid, nid)` on the pass state:
the pair's used flag is set, the pair's histogram keeps its content when the
pair was already used and is zeroed otherwise, every other histogram and flag
is untouched, and for a non-negative assignment the scratch row is allocated.
The hypothesis `halloc` (a used pair's scratch row is already allocated) is an
invariant of the pass, established below. -/
theorem getInitHist_spec (mapF : ℕ × ℕ → Option ℤ) (nbins : ℕ) (st : PassState)
    (tid nid : ℕ) (idx : ℤ) (hidx : mapF (tid, nid) = some idx)
    (halloc : st.used (tid, nid) = true → 0 ≤ idx → st.alloc idx.toNat = true) :
    (∀ p, (getInitHist mapF nbins st tid nid).used p =
      if p = (tid, nid) then true else st.used p) ∧
    (∀ r, r ≠ refOf idx nid → readRef (getInitHist mapF nbins st tid nid) r = readRef st r) ∧
    (∀ b, b < nbins → readRef (getInitHist mapF nbins st tid nid) (refOf idx nid) b =
      if st.used (tid, nid) = true then readRef st (refOf idx nid) b else gzero) ∧
    (∀ j, (getInitHist mapF nbins st tid nid).alloc j =
      if 0 ≤ idx ∧ j = idx.toNat then true else st.alloc j) := by
  unfold getInitHist
  rw [hidx]
  dsimp only
  by_cases hpos : 0 ≤ idx
  · rw [if_pos hpos, allocScratch_used]
    have href : refOf idx nid = HistRef.scratch idx.toNat := refOf_nonneg idx nid hpos
    by_cases huse : st.used (tid, nid) = true
    · rw [if_pos huse]
      refine ⟨fun p => ?_, fun r hr => ?_, fun b hb => ?_, fun j => ?_⟩
      · rw [allocScratch_used]
        by_cases hp : p = (tid, nid)
        · rw [if_pos hp, hp, huse]
        · rw [if_neg hp]
      · rw [href] at hr
        exact readRef_allocScratch_ne st idx.toNat nbins r hr
      · rw [if_pos huse, href]
        show (allocScratch st idx.toNat nbins).scratch idx.toNat b = st.scratch idx.toNat b
        rw [allocScratch_scratch_self st idx.toNat nbins b hb, if_pos (halloc huse hpos)]
      · rw [allocScratch_alloc]
        by_cases hj : j = idx.toNat
        · simp [hj, hpos]
        · simp [hj]
    · rw [if_neg huse]
      refine ⟨fun p => ?_, fun r hr => ?_, fun b hb => ?_, fun j => ?_⟩
      · dsimp only
        by_cases hp : p = (tid, nid)
        · rw [if_pos hp, if_pos hp]
        · rw [if_neg hp, if_neg hp, used_writeRef, allocScratch_used]
      · refine ((readRef_writeRef_ne (allocScratch st idx.toNat nbins) (refOf idx nid) r
            (zeroFill (readRef (allocScratch st idx.toNat nbins) (refOf idx nid)) 0 nbins)
            hr).trans ?_)
        rw [href] at hr
        exact readRef_allocScratch_ne st idx.toNat nbins r hr
      · rw [if_neg huse]
        have h1 : readRef (writeRef (allocScratch st idx.toNat nbins) (refOf idx nid)
            (zeroFill (readRef (allocScratch st idx.toNat nbins) (refOf idx nid)) 0 nbins))
            (refOf idx nid) b = gzero := by
          rw [readRef_writeRef_same]
          simp [zeroFill, hb]
        exact h1
      · dsimp only
        rw [alloc_writeRef, allocScratch_alloc]
        by_cases hj : j = idx.toNat
        · simp [hj, hpos]
        · simp [hj]
  · rw [if_neg hpos]
    by_cases huse : st.used (tid, nid) = true
    · rw [if_pos huse]
      refine ⟨fun p => ?_, fun r hr => rfl, fun b hb => ?_, fun j => ?_⟩
      · by_cases hp : p = (tid, nid)
        · rw [if_pos hp, hp, huse]
        · rw [if_neg hp]
      · rw [if_pos huse]
      · rw [if_neg (fun hc => hpos hc.1)]
    · rw [if_neg huse]
      refine ⟨fun p => ?_, fun r hr => ?_, fun b hb => ?_, fun j => ?_⟩
      · dsimp only
        by_cases hp : p = (tid, nid)
        · rw [if_pos hp, if_pos hp]
        · rw [if_neg hp, if_neg hp, used_writeRef]
      · exact readRef_writeRef_ne st (refOf idx nid) r
          (zeroFill (readRef st (refOf idx nid)) 0 nbins) hr
      · rw [if_neg huse]
        have h1 : readRef (writeRef st (refOf idx nid)
            (zeroFill (readRef st (refOf idx nid)) 0 nbins)) (refOf idx nid) b = gzero := by
          rw [readRef_writeRef_same]
          simp [zeroFill, hb]
        exact h1
      · dsimp only
        rw [alloc_writeRef, if_neg (fun hc => hpos hc.1)]

/-- The complete effect of one work unit: the pair's flag is set, the pair's
histogram is advanced by the unit's per-bin row sums (starting from zero on
the pair's first use), and everything else is untouched. -/
theorem processUnit_spec (mapF : ℕ × ℕ → Option ℤ) (nbins : ℕ) (gpair : ℕ → GPair)
    (binOf : ℕ → ℕ) (st : PassState) (tid nid : ℕ) (rows : List ℕ) (idx : ℤ)
    (hidx : mapF (tid, nid) = some idx)
    (halloc : st.used (tid, nid) = true → 0 ≤ idx → st.alloc idx.toNat = true) :
    (∀ p, (processUnit mapF nbins gpair binOf st tid (nid, rows)).used p =
      if p = (tid, nid) then true else st.used p) ∧
    (∀ r, r ≠ refOf idx nid →
      readRef (processUnit mapF nbins gpair binOf st tid (nid, rows)) r = readRef st r) ∧
    (∀ b, b < nbins →
      readRef (processUnit mapF nbins gpair binOf st tid (nid, rows)) (refOf idx nid) b =
      (if st.used (tid, nid) = true then readRef st (refOf idx nid) b else gzero) +
        rowsSum gpair binOf rows b) ∧
    (∀ j, (processUnit mapF nbins gpair binOf st tid (nid, rows)).alloc j =
      if 0 ≤ idx ∧ j = idx.toNat then true else st.alloc j) := by
  obtain ⟨g1, g2, g3, g4⟩ := getInitHist_spec mapF nbins st tid nid idx hidx halloc
  unfold processUnit
  dsimp only
  rw [hidx]
  dsimp only
  refine ⟨fun p => ?_, fun r hr => ?_, fun b hb => ?_, fun j => ?_⟩
  · rw [used_writeRef]
    exact g1 p
  · exact (readRef_writeRef_ne _ _ _ _ hr).trans (g2 r hr)
  · rw [readRef_writeRef_same, accumulate_apply, g3 b hb]
  · rw [alloc_writeRef]
    exact g4 j

theorem rank_zero_unique (nodes : ℕ) (marked : ℕ → Bool) (nid : ℕ) {t1 t2 : ℕ}
    (h1 : marked (t1 * nodes + nid) = true) (h2 : marked (t2 * nodes + nid) = true)
    (r1 : rankOf nodes marked nid t1 = 0) (r2 : rankOf nodes marked nid t2 = 0) :
    t1 = t2 := by
  by_contra hne
  rcases Nat.lt_or_ge t1 t2 with h | h
  · have := rankOf_lt_of_marked nodes marked nid h1 h
    omega
  · have h' : t2 < t1 := by omega
    have := rankOf_lt_of_marked nodes marked nid h2 h'
    omega

theorem rank_inj_marked (nodes : ℕ) (marked : ℕ → Bool) (nid : ℕ) {t1 t2 : ℕ}
    (h1 : marked (t1 * nodes + nid) = true) (h2 : marked (t2 * nodes + nid) = true)
    (he : rankOf nodes marked nid t1 = rankOf nodes marked nid t2) : t1 = t2 := by
  by_contra hne
  rcases Nat.lt_or_ge t1 t2 with h | h
  · have := rankOf_lt_of_marked nodes marked nid h1 h
    omega
  · have h' : t2 < t1 := by omega
    have := rankOf_lt_of_marked nodes marked nid h2 h'
    omega

/-- Every value stored by `MatchNodeNidPairToHist` is `-1` at the node's
first marked thread or the node's block-local scratch index. -/
theorem mapHist_cases (nthreads nodes : ℕ) (marked : ℕ → Bool) {p : ℕ × ℕ} {v : ℤ}
    (h : (matchNodeNidPairToHist nthreads nodes marked).1 p = some v) :
    p.2 < nodes ∧ p.1 < nthreads ∧ marked (p.1 * nodes + p.2) = true ∧
    ((v = -1 ∧ rankOf nodes marked p.2 p.1 = 0) ∨
     (1 ≤ rankOf nodes marked p.2 p.1 ∧
      rankOf nodes marked p.2 p.1 ≤ rankOf nodes marked p.2 nthreads - 1 ∧
      v = ((offOf nthreads nodes marked p.2 + rankOf nodes marked p.2 p.1 - 1 : ℕ) : ℤ))) := by
  have hs := (matchNodeNidPairToHist_spec nthreads nodes marked).1 p
  rw [h] at hs
  by_cases hc : p.2 < nodes ∧ p.1 < nthreads ∧ marked (p.1 * nodes + p.2) = true
  · rw [if_pos hc] at hs
    refine ⟨hc.1, hc.2.1, hc.2.2, ?_⟩
    by_cases hr : rankOf nodes marked p.2 p.1 = 0
    · rw [if_pos hr] at hs
      exact Or.inl ⟨Option.some.inj hs, hr⟩
    · rw [if_neg hr] at hs
      have hlt := rankOf_lt_of_marked nodes marked p.2 hc.2.2 hc.2.1
      exact Or.inr ⟨by omega, by omega, Option.some.inj hs⟩
  · rw [if_neg hc] at hs
    exact absurd hs (by simp)

/-- Distinct registered pairs are assigned non-aliasing histograms: at most
one `-1` per node, and globally distinct scratch rows. -/
theorem mapHist_refOf_inj (nthreads nodes : ℕ) (marked : ℕ → Bool) {p1 p2 : ℕ × ℕ}
    {v1 v2 : ℤ}
    (h1 : (matchNodeNidPairToHist nthreads nodes marked).1 p1 = some v1)
    (h2 : (matchNodeNidPairToHist nthreads nodes marked).1 p2 = some v2)
    (hne : p1 ≠ p2) : refOf v1 p1.2 ≠ refOf v2 p2.2 := by
  obtain ⟨n1lt, t1lt, m1, c1⟩ := mapHist_cases nthreads nodes marked h1
  obtain ⟨n2lt, t2lt, m2, c2⟩ := mapHist_cases nthreads nodes marked h2
  rcases c1 with ⟨hv1, r1⟩ | ⟨r1a, r1b, hv1⟩
  · rcases c2 with ⟨hv2, r2⟩ | ⟨r2a, r2b, hv2⟩
    · subst hv1
      subst hv2
      rw [refOf_minus_one, refOf_minus_one]
      intro he
      injection he with hn
      apply hne
      have hm1' : marked (p1.1 * nodes + p2.2) = true := by rw [← hn]; exact m1
      have hr1' : rankOf nodes marked p2.2 p1.1 = 0 := by rw [← hn]; exact r1
      have ht : p1.1 = p2.1 := rank_zero_unique nodes marked p2.2 hm1' m2 hr1' r2
      exact Prod.ext ht hn
    · subst hv1
      rw [refOf_minus_one, hv2, refOf_nonneg _ _ (Int.natCast_nonneg _)]
      intro he
      exact HistRef.noConfusion he
  · rcases c2 with ⟨hv2, r2⟩ | ⟨r2a, r2b, hv2⟩
    · subst hv2
      rw [refOf_minus_one, hv1, refOf_nonneg _ _ (Int.natCast_nonneg _)]
      intro he
      exact HistRef.noConfusion he
    · rw [hv1, hv2, refOf_nonneg _ _ (Int.natCast_nonneg _),
        refOf_nonneg _ _ (Int.natCast_nonneg _)]
      intro he
      injection he with hn
      rw [Int.toNat_natCast, Int.toNat_natCast] at hn
      have hnid : p1.2 = p2.2 := by
        by_contra hnn
        rcases Nat.lt_or_ge p1.2 p2.2 with hlt | hge
        · have hb := offOf_block_le nthreads nodes marked hlt
          omega
        · have hlt2 : p2.2 < p1.2 := by omega
          have hb := offOf_block_le nthreads nodes marked hlt2
          omega
      have hrank : rankOf nodes marked p1.2 p1.1 = rankOf nodes marked p1.2 p2.1 := by
        rw [hnid] at r1a r1b hn ⊢
        omega
      have hm2' : marked (p2.1 * nodes + p1.2) = true := by rw [hnid]; exact m2
      have ht : p1.1 = p2.1 := rank_inj_marked nodes marked p1.2 m1 hm2' hrank
      exact hne (Prod.ext ht hnid)

/-- A non-negative assignment is a scratch row below the reserved total. -/
theorem mapHist_nonneg_lt_total (nthreads nodes : ℕ) (marked : ℕ → Bool) {p : ℕ × ℕ}
    {v : ℤ} (h : (matchNodeNidPairToHist nthreads nodes marked).1 p = some v)
    (hv : 0 ≤ v) : v.toNat < offOf nthreads nodes marked nodes := by
  obtain ⟨nlt, tlt, m, c⟩ := mapHist_cases nthreads nodes marked h
  rcases c with ⟨hv1, -⟩ | ⟨r1, r2, hv'⟩
  · omega
  · rw [hv', Int.toNat_natCast]
    have hb := offOf_block_le nthreads nodes marked nlt
    omega

theorem exists_first_marked (nodes : ℕ) (marked : ℕ → Bool) (nid : ℕ) {t0 : ℕ}
    (h : marked (t0 * nodes + nid) = true) :
    ∃ t, t ≤ t0 ∧ marked (t * nodes + nid) = true ∧ rankOf nodes marked nid t = 0 := by
  have hex : ∃ t, marked (t * nodes + nid) = true := ⟨t0, h⟩
  refine ⟨Nat.find hex, Nat.find_min' hex h, Nat.find_spec hex, ?_⟩
  unfold rankOf
  rw [List.length_eq_zero, List.filter_eq_nil_iff]
  intro t ht
  rw [List.mem_range] at ht
  exact Nat.find_min hex ht

theorem mapHist_first_marked (nthreads nodes : ℕ) (marked : ℕ → Bool) {t nid : ℕ}
    (ht : t < nthreads) (hn : nid < nodes) (hm : marked (t * nodes + nid) = true)
    (hr : rankOf nodes marked nid t = 0) :
    (matchNodeNidPairToHist nthreads nodes marked).1 (t, nid) = some (-1) := by
  have hs := (matchNodeNidPairToHist_spec nthreads nodes marked).1 (t, nid)
  rw [hs]
  dsimp only at *
  rw [if_pos ⟨hn, ht, hm⟩, if_pos hr]

theorem mapHist_present (nthreads nodes : ℕ) (marked : ℕ → Bool) {t nid : ℕ}
    (ht : t < nthreads) (hn : nid < nodes) (hm : marked (t * nodes + nid) = true) :
    ∃ v, (matchNodeNidPairToHist nthreads nodes marked).1 (t, nid) = some v := by
  have hs := (matchNodeNidPairToHist_spec nthreads nodes marked).1 (t, nid)
  dsimp only at hs
  rw [if_pos ⟨hn, ht, hm⟩] at hs
  by_cases hr : rankOf nodes marked nid t = 0
  · exact ⟨-1, by rw [hs, if_pos hr]⟩
  · exact ⟨_, by rw [hs, if_neg hr]⟩

/-- The invariant of the aggregation phase after executing the items `P`:
exactly the executed pairs are flagged used, each used pair's histogram holds
exactly that pair's accumulated per-bin sums, a target whose owning thread has
not run still holds its pre-pass (stale) contents, and every used scratch row
is allocated. -/
structure PassInv (mapF : ℕ × ℕ → Option ℤ) (nbins : ℕ) (gpair : ℕ → GPair)
    (binOf : ℕ → ℕ) (stale : ℕ → ℕ → GPair) (P : List PassItem) (st : PassState) :
    Prop where
  used_iff : ∀ tid nid, st.used (tid, nid) = true ↔ pairTouched P tid nid
  content : ∀ tid nid idx, mapF (tid, nid) = some idx → pairTouched P tid nid →
    ∀ b, b < nbins → readRef st (refOf idx nid) b = pairContrib gpair binOf P tid nid b
  stale_target : ∀ nid b, b < nbins →
    (∀ tid, mapF (tid, nid) = some (-1) → ¬ pairTouched P tid nid) →
    st.target nid b = stale nid b
  alloc_set : ∀ tid nid idx, mapF (tid, nid) = some idx → 0 ≤ idx →
    pairTouched P tid nid → st.alloc idx.toNat = true

theorem passInv_init (mapF : ℕ × ℕ → Option ℤ) (nbins : ℕ) (gpair : ℕ → GPair)
    (binOf : ℕ → ℕ) (stale scratch0 : ℕ → ℕ → GPair) :
    PassInv mapF nbins gpair binOf stale []
      ⟨fun _ => false, stale, scratch0, fun _ => false⟩ := by
  constructor
  · intro t n
    simp [pairTouched]
  · intro t n idx _ htouch
    exact absurd htouch (by simp [pairTouched])
  · intro n b _ _
    rfl
  · intro t n idx _ _ htouch
    exact absurd htouch (by simp [pairTouched])

theorem passInv_step (mapF : ℕ × ℕ → Option ℤ) (nbins : ℕ) (gpair : ℕ → GPair)
    (binOf : ℕ → ℕ) (stale : ℕ → ℕ → GPair)
    (hinj : ∀ p1 p2 v1 v2, mapF p1 = some v1 → mapF p2 = some v2 → p1 ≠ p2 →
      refOf v1 p1.2 ≠ refOf v2 p2.2)
    (P : List PassItem) (st : PassState) (inv : PassInv mapF nbins gpair binOf stale P st)
    (tid nid : ℕ) (rows : List ℕ) (idx : ℤ) (hidx : mapF (tid, nid) = some idx) :
    PassInv mapF nbins gpair binOf stale (P ++ [(tid, nid, rows)])
      (processUnit mapF nbins gpair binOf st tid (nid, rows)) := by
  have halloc : st.used (tid, nid) = true → 0 ≤ idx → st.alloc idx.toNat = true := by
    intro hu hpos
    exact inv.alloc_set tid nid idx hidx hpos ((inv.used_iff tid nid).mp hu)
  obtain ⟨e1, e2, e3, e4⟩ :=
    processUnit_spec mapF nbins gpair binOf st tid nid rows idx hidx halloc
  constructor
  · intro t n
    rw [e1 (t, n), pairTouched_append_one]
    by_cases hp : (t, n) = (tid, nid)
    · rw [if_pos hp]
      obtain ⟨ht, hn⟩ := Prod.ext_iff.mp hp
      constructor
      · intro _
        exact Or.inr ⟨ht.symm, hn.symm⟩
      · intro _
        rfl
    · rw [if_neg hp, inv.used_iff t n]
      constructor
      · exact Or.inl
      · rintro (h | ⟨ht, hn⟩)
        · exact h
        · exact absurd (Prod.ext ht.symm hn.symm) hp
  · intro t n idx' hidx' htouch b hb
    by_cases hp : (t, n) = (tid, nid)
    · obtain ⟨ht, hn⟩ := Prod.ext_iff.mp hp
      subst ht
      subst hn
      have hii : idx' = idx := Option.some.inj (hidx'.symm.trans hidx)
      subst hii
      rw [e3 b hb, pairContrib_append_one,
        if_pos (⟨rfl, rfl⟩ : (t, n, rows).1 = t ∧ (t, n, rows).2.1 = n)]
      by_cases hu : st.used (t, n) = true
      · rw [if_pos hu, inv.content t n idx' hidx' ((inv.used_iff t n).mp hu) b hb]
      · rw [if_neg hu]
        have hnt : ¬ pairTouched P t n := fun hc => hu ((inv.used_iff t n).mpr hc)
        rw [pairContrib_of_not_touched gpair binOf P t n b hnt]
        show gzero + _ = (0 : GPair) + _
        rfl
    · have href : refOf idx' n ≠ refOf idx nid :=
        hinj (t, n) (tid, nid) idx' idx hidx' hidx hp
      rw [e2 (refOf idx' n) href]
      have htP : pairTouched P t n := by
        rcases (pairTouched_append_one P (tid, nid, rows) t n).mp htouch with h | ⟨h1, h2⟩
        · exact h
        · exact absurd (Prod.ext h1.symm h2.symm) hp
      rw [inv.content t n idx' hidx' htP b hb, pairContrib_append_one]
      rw [if_neg ?_, add_zero]
      rintro ⟨h1, h2⟩
      exact hp (Prod.ext h1.symm h2.symm)
  · intro n b hb hnone
    by_cases hcase : HistRef.target n = refOf idx nid
    · exfalso
      have hc2 : idx = -1 ∧ nid = n := by
        unfold refOf at hcase
        split at hcase
        · next h1 =>
          injection hcase with h2
          exact ⟨h1, h2.symm⟩
        · exact absurd hcase (fun hh => HistRef.noConfusion hh)
      obtain ⟨hidx1, hn⟩ := hc2
      subst hidx1
      subst hn
      exact hnone tid hidx
        ((pairTouched_append_one P (tid, nid, rows) tid nid).mpr (Or.inr ⟨rfl, rfl⟩))
    · have hfr := e2 (HistRef.target n) hcase
      have hval : (processUnit mapF nbins gpair binOf st tid (nid, rows)).target n b =
          st.target n b := congrFun hfr b
      rw [hval]
      apply inv.stale_target n b hb
      intro t' h' htouch'
      exact hnone t' h'
        ((pairTouched_append_one P (tid, nid, rows) t' n).mpr (Or.inl htouch'))
  · intro t n idx' hidx' hpos htouch
    rw [e4 idx'.toNat]
    by_cases hc : 0 ≤ idx ∧ idx'.toNat = idx.toNat
    · rw [if_pos hc]
    · rw [if_neg hc]
      by_cases hp : (t, n) = (tid, nid)
      · exfalso
        rw [hp] at hidx'
        have hii : idx' = idx := Option.some.inj (hidx'.symm.trans hidx)
        exact hc ⟨hii ▸ hpos, by rw [hii]⟩
      · have htP : pairTouched P t n := by
          rcases (pairTouched_append_one P (tid, nid, rows) t n).mp htouch with h | ⟨h1, h2⟩
          · exact h
          · exact absurd (Prod.ext h1.symm h2.symm) hp
        exact inv.alloc_set t n idx' hidx' hpos htP

theorem passInv_run (mapF : ℕ × ℕ → Option ℤ) (nbins : ℕ) (gpair : ℕ → GPair)
    (binOf : ℕ → ℕ) (stale : ℕ → ℕ → GPair)
    (hinj : ∀ p1 p2 v1 v2, mapF p1 = some v1 → mapF p2 = some v2 → p1 ≠ p2 →
      refOf v1 p1.2 ≠ refOf v2 p2.2)
    (P : List PassItem) (hP : ∀ x ∈ P, ∃ idx, mapF (x.1, x.2.1) = some idx) :
    ∀ (Q : List PassItem) (st : PassState), PassInv mapF nbins gpair binOf stale Q st →
    PassInv mapF nbins gpair binOf stale (Q ++ P)
      (P.foldl (fun st2 x => processUnit mapF nbins gpair binOf st2 x.1 x.2) st) := by
  induction P with
  | nil =>
    intro Q st inv
    simpa using inv
  | cons x P ih =>
    intro Q st inv
    obtain ⟨idx, hidx⟩ := hP x (by simp)
    rw [List.foldl_cons]
    have step := passInv_step mapF nbins gpair binOf stale hinj Q st inv x.1 x.2.1 x.2.2 idx hidx
    have hrest := ih (fun y hy => hP y (by simp [hy])) (Q ++ [(x.1, x.2.1, x.2.2)]) _ step
    have hQ : (Q ++ [(x.1, x.2.1, x.2.2)]) ++ P = Q ++ x :: P := by
      simp
    rw [hQ] at hrest
    exact hrest

/-! ### The flattened work list of the pass -/

/-- All items `(tid, unit)` executed during the pass, thread by thread, each
thread walking its contiguous chunk in order. -/
def unitList (nthreads : ℕ) (space : BlockedSpace2d) : List PassItem :=
  (List.range nthreads).flatMap (fun tid =>
    (chunkUnits nthreads space tid).map (fun u => (tid, u)))

theorem runPass_eq (mapF : ℕ × ℕ → Option ℤ) (nbins nthreads : ℕ)
    (space : BlockedSpace2d) (gpair : ℕ → GPair) (binOf : ℕ → ℕ) (st0 : PassState) :
    runPass mapF nbins nthreads space gpair binOf st0 =
    (unitList nthreads space).foldl
      (fun st x => processUnit mapF nbins gpair binOf st x.1 x.2) st0 := rfl

theorem mem_unitList_iff (nthreads : ℕ) (space : BlockedSpace2d) (x : PassItem) :
    x ∈ unitList nthreads space ↔
    x.1 < nthreads ∧ x.2 ∈ chunkUnits nthreads space x.1 := by
  unfold unitList
  rw [List.mem_flatMap]
  constructor
  · rintro ⟨tid, htid, hx⟩
    rcases List.mem_map.mp hx with ⟨u, hu, hux⟩
    subst hux
    exact ⟨List.mem_range.mp htid, hu⟩
  · rintro ⟨h1, h2⟩
    exact ⟨x.1, List.mem_range.mpr h1, List.mem_map.mpr ⟨x.2, h2, rfl⟩⟩

/-- The chunks of all `nthreads` threads concatenate back to the whole work
space: the chunking partitions it. -/
theorem flatMap_chunkUnits (nthreads : ℕ) (space : BlockedSpace2d)
    (hT : 0 < nthreads) :
    (List.range nthreads).flatMap (chunkUnits nthreads space) = space := by
  have h : ∀ k, (List.range k).flatMap (chunkUnits nthreads space) =
      space.take (chunckSize (spaceSize space) nthreads * k) := by
    intro k
    induction k with
    | zero => simp
    | succ k ih =>
      rw [List.range_succ, List.flatMap_append, ih, List.flatMap_cons, List.flatMap_nil,
        List.append_nil, Nat.mul_succ, List.take_add]
      rfl
  rw [h nthreads]
  apply List.take_of_length_le
  have hc := chunckSize_covers (spaceSize space) nthreads hT
  have hss : spaceSize space = space.length := rfl
  omega

/-- Forgetting the thread component of the executed items recovers the work
space itself, in order. -/
theorem unitList_map_snd (nthreads : ℕ) (space : BlockedSpace2d) (hT : 0 < nthreads) :
    (unitList nthreads space).map (fun x => x.2) = space := by
  unfold unitList
  rw [List.map_flatMap]
  have h : ∀ tid, ((chunkUnits nthreads space tid).map (fun u => (tid, u))).map
      (fun x : PassItem => x.2) = chunkUnits nthreads space tid := by
    intro tid
    rw [List.map_map]
    exact List.map_id _
  have hfg : (fun tid => ((chunkUnits nthreads space tid).map (fun u => (tid, u))).map
      (fun x : PassItem => x.2)) = chunkUnits nthreads space := funext h
  rw [hfg]
  exact flatMap_chunkUnits nthreads space hT

/-- The serial reference result: the per-bin sum of the gradient pairs of all
rows of all units assigned to node `nid`, accumulated in work-space order by a
single thread. -/
def serialHist (gpair : ℕ → GPair) (binOf : ℕ → ℕ) (space : BlockedSpace2d)
    (nid b : ℕ) : GPair :=
  ((space.filter (fun u => decide (u.1 = nid))).map
    (fun u => rowsSum gpair binOf u.2 b)).sum

/-- Summing the per-pair contributions over all threads regroups the item
list's units by node: the total is the per-node serial sum over the items. -/
theorem sum_pairContrib (gpair : ℕ → GPair) (binOf : ℕ → ℕ) (T : ℕ)
    (P : List PassItem) (hT : ∀ x ∈ P, x.1 < T) (nid b : ℕ) :
    ∑ tid ∈ Finset.range T, pairContrib gpair binOf P tid nid b =
    ((P.filter (fun x => decide (x.2.1 = nid))).map
      (fun x => rowsSum gpair binOf x.2.2 b)).sum := by
  induction P with
  | nil =>
    simp [pairContrib]
  | cons x P ih =>
    have hx : x.1 < T := hT x (by simp)
    have hP' : ∀ y ∈ P, y.1 < T := fun y hy => hT y (by simp [hy])
    have hsplit : ∀ tid, pairContrib gpair binOf (x :: P) tid nid b =
        (if x.1 = tid ∧ x.2.1 = nid then rowsSum gpair binOf x.2.2 b else 0) +
        pairContrib gpair binOf P tid nid b := by
      intro tid
      unfold pairContrib
      rw [List.filter_cons]
      by_cases hc : x.1 = tid ∧ x.2.1 = nid
      · rw [if_pos (decide_eq_true hc), if_pos hc, List.map_cons, List.sum_cons]
      · rw [if_neg (by simpa using hc), if_neg hc, zero_add]
    rw [Finset.sum_congr rfl (fun tid _ => hsplit tid), Finset.sum_add_distrib, ih hP']
    by_cases hxn : x.2.1 = nid
    · have hite : ∀ tid, (if x.1 = tid ∧ x.2.1 = nid then
          rowsSum gpair binOf x.2.2 b else 0) =
          (if tid = x.1 then rowsSum gpair binOf x.2.2 b else 0) := by
        intro tid
        by_cases h : tid = x.1
        · rw [if_pos ⟨h.symm, hxn⟩, if_pos h]
        · rw [if_neg (fun hc => h hc.1.symm), if_neg h]
      rw [Finset.sum_congr rfl (fun tid _ => hite tid),
        Finset.sum_ite_eq' (Finset.range T) x.1
          (fun _ => rowsSum gpair binOf x.2.2 b),
        if_pos (Finset.mem_range.mpr hx), List.filter_cons,
        if_pos (decide_eq_true hxn), List.map_cons, List.sum_cons]
    · have hzero : ∀ tid ∈ Finset.range T, (if x.1 = tid ∧ x.2.1 = nid then
          rowsSum gpair binOf x.2.2 b else 0) = 0 := by
        intro tid _
        exact if_neg (fun hc => hxn hc.2)
      rw [Finset.sum_congr rfl hzero, Finset.sum_const_zero, zero_add,
        List.filter_cons, if_neg (by simpa using hxn)]

/-- Over the pass's actual item list the thread-sum of pair contributions is
exactly the serial per-node histogram. -/
theorem sum_pairContrib_unitList (gpair : ℕ → GPair) (binOf : ℕ → ℕ)
    (nthreads : ℕ) (space : BlockedSpace2d) (hT : 0 < nthreads) (nid b : ℕ) :
    ∑ tid ∈ Finset.range nthreads,
      pairContrib gpair binOf (unitList nthreads space) tid nid b =
    serialHist gpair binOf space nid b := by
  rw [sum_pairContrib gpair binOf nthreads (unitList nthreads space)
    (fun x hx => ((mem_unitList_iff nthreads space x).mp hx).1) nid b]
  unfold serialHist
  conv_rhs => rw [← unitList_map_snd nthreads space hT]
  rw [List.filter_map, List.map_map]
  rfl

/-- Which `(thread, node)` pairs the pass touches, characterized through the
chunking. -/
theorem pairTouched_unitList (nthreads : ℕ) (space : BlockedSpace2d) (t n : ℕ) :
    pairTouched (unitList nthreads space) t n ↔
    (t < nthreads ∧ ∃ u ∈ chunkUnits nthreads space t, u.1 = n) := by
  unfold pairTouched
  constructor
  · rintro ⟨x, hx, h1, h2⟩
    obtain ⟨ht, hc⟩ := (mem_unitList_iff nthreads space x).mp hx
    subst h1
    exact ⟨ht, x.2, hc, h2⟩
  · rintro ⟨ht, u, hu, hn⟩
    refine ⟨(t, u), ?_, rfl, hn⟩
    exact (mem_unitList_iff nthreads space (t, u)).mpr ⟨ht, hu⟩

/-! ### The reduce phase, characterized -/

/-- The per-thread addend `ReduceHist` folds into the target of node `nid`:
zero for a pair the pass never used, zero for the pair whose histogram *is*
the target (the `dst.data() == src.data()` skip), and otherwise the thread's
scratch row for the node. -/
def scratchContrib (mapF : ℕ × ℕ → Option ℤ) (st : PassState) (nid tid b : ℕ) :
    GPair :=
  if st.used (tid, nid) = true then
    match mapF (tid, nid) with
    | some idx =>
      if refOf idx nid = HistRef.target nid then 0 else st.scratch idx.toNat b
    | none => 0
  else 0

theorem reduceStep_char (mapF : ℕ × ℕ → Option ℤ) (st : PassState) (nid b0 b1 : ℕ)
    (acc : (ℕ → GPair) × Bool) (k : ℕ) :
    reduceStep mapF st nid b0 b1 acc k =
    (fun b => if b0 ≤ b ∧ b < b1 then acc.1 b + scratchContrib mapF st nid k b
      else acc.1 b,
     acc.2 || st.used (k, nid)) := by
  unfold reduceStep
  by_cases hu : st.used (k, nid) = true
  · rw [if_pos hu]
    rcases hmk : mapF (k, nid) with _ | idx
    · refine Prod.ext ?_ ?_
      · funext b
        dsimp only
        unfold scratchContrib
        rw [if_pos hu, hmk]
        by_cases hb : b0 ≤ b ∧ b < b1
        · rw [if_pos hb, add_zero]
        · rw [if_neg hb]
      · dsimp only
        rw [hu, Bool.or_true]
    · dsimp only
      by_cases hrf : refOf idx nid = HistRef.target nid
      · rw [if_pos hrf]
        refine Prod.ext ?_ ?_
        · funext b
          dsimp only
          unfold scratchContrib
          rw [if_pos hu, hmk]
          dsimp only
          rw [if_pos hrf]
          by_cases hb : b0 ≤ b ∧ b < b1
          · rw [if_pos hb, add_zero]
          · rw [if_neg hb]
        · dsimp only
          rw [hu, Bool.or_true]
      · rw [if_neg hrf]
        refine Prod.ext ?_ ?_
        · funext b
          dsimp only
          unfold incrementHist scratchContrib
          rw [if_pos hu, hmk]
          dsimp only
          rw [if_neg hrf]
        · dsimp only
          rw [hu, Bool.or_true]
  · rw [if_neg hu]
    have hu' : st.used (k, nid) = false := by
      simpa using hu
    refine Prod.ext ?_ ?_
    · funext b
      dsimp only
      unfold scratchContrib
      rw [if_neg hu]
      by_cases hb : b0 ≤ b ∧ b < b1
      · rw [if_pos hb, add_zero]
      · rw [if_neg hb]
    · dsimp only
      rw [hu', Bool.or_false]

/-- The fold of `ReduceHist`'s loop over the first `k` threads: the flag
records whether any of them used the node, and every bin of the range holds
the target's pre-reduce row plus the sum of those threads' addends. -/
theorem reduceStep_fold_spec (mapF : ℕ × ℕ → Option ℤ) (st : PassState)
    (nid b0 b1 k : ℕ) :
    (((List.range k).foldl (reduceStep mapF st nid b0 b1)
        (st.target nid, false)).2 = true ↔ ∃ tid < k, st.used (tid, nid) = true) ∧
    (∀ b, b0 ≤ b → b < b1 →
      ((List.range k).foldl (reduceStep mapF st nid b0 b1)
        (st.target nid, false)).1 b =
      st.target nid b + ∑ tid ∈ Finset.range k, scratchContrib mapF st nid tid b) := by
  induction k with
  | zero =>
    constructor
    · simp
    · intro b _ _
      simp
  | succ k ih =>
    obtain ⟨ih1, ih2⟩ := ih
    rw [List.range_succ, List.foldl_append, List.foldl_cons, List.foldl_nil,
      reduceStep_char]
    constructor
    · dsimp only
      rw [Bool.or_eq_true, ih1]
      constructor
      · rintro (⟨t, ht, hut⟩ | hk)
        · exact ⟨t, by omega, hut⟩
        · exact ⟨k, by omega, hk⟩
      · rintro ⟨t, ht, hut⟩
        by_cases htk : t < k
        · exact Or.inl ⟨t, htk, hut⟩
        · have : t = k := by omega
          subst this
          exact Or.inr hut
    · intro b hb0 hb1
      dsimp only
      rw [if_pos ⟨hb0, hb1⟩, ih2 b hb0 hb1, Finset.sum_range_succ, add_assoc]

/-- The complete effect of `ReduceHist(nid, b0, b1)`: only the node's target
changes; over the range it becomes the old target plus all used threads'
addends, unless no thread used the node, in which case it is zero-filled. -/
theorem reduceHist_spec (mapF : ℕ × ℕ → Option ℤ) (nthreads : ℕ) (st : PassState)
    (nid b0 b1 : ℕ) :
    (reduceHist mapF nthreads st nid b0 b1).used = st.used ∧
    (reduceHist mapF nthreads st nid b0 b1).scratch = st.scratch ∧
    (∀ n, n ≠ nid → (reduceHist mapF nthreads st nid b0 b1).target n = st.target n) ∧
    (∀ b, b0 ≤ b → b < b1 →
      (reduceHist mapF nthreads st nid b0 b1).target nid b =
      if ∃ tid < nthreads, st.used (tid, nid) = true then
        st.target nid b + ∑ tid ∈ Finset.range nthreads, scratchContrib mapF st nid tid b
      else gzero) := by
  obtain ⟨h1, h2⟩ := reduceStep_fold_spec mapF st nid b0 b1 nthreads
  refine ⟨rfl, rfl, ?_, ?_⟩
  · intro n hn
    show (if n = nid then _ else st.target n) = st.target n
    rw [if_neg hn]
  · intro b hb0 hb1
    show (if nid = nid then _ else st.target nid) b = _
    rw [if_pos (rfl : nid = nid)]
    by_cases hex : ∃ tid < nthreads, st.used (tid, nid) = true
    · rw [if_pos hex]
      have hflag : ((List.range nthreads).foldl (reduceStep mapF st nid b0 b1)
          (st.target nid, false)).2 = true := h1.mpr hex
      rw [hflag]
      show ((List.range nthreads).foldl (reduceStep mapF st nid b0 b1)
        (st.target nid, false)).1 b = _
      exact h2 b hb0 hb1
    · rw [if_neg hex]
      have hflag : ((List.range nthreads).foldl (reduceStep mapF st nid b0 b1)
          (st.target nid, false)).2 = false := by
        rcases Bool.eq_false_or_eq_true (((List.range nthreads).foldl
          (reduceStep mapF st nid b0 b1) (st.target nid, false)).2) with h | h
        · exact absurd (h1.mp h) hex
        · exact h
      rw [hflag]
      show zeroFill _ b0 b1 b = gzero
      unfold zeroFill
      rw [if_pos ⟨hb0, hb1⟩]

theorem scratchContrib_congr (mapF : ℕ × ℕ → Option ℤ) (st st' : PassState)
    (hu : st'.used = st.used) (hs : st'.scratch = st.scratch) (nid tid b : ℕ) :
    scratchContrib mapF st' nid tid b = scratchContrib mapF st nid tid b := by
  unfold scratchContrib
  rw [hu, hs]

/-- Running `ReduceHist(n, 0, nbins)` over every node in turn: each node's
target ends up reduced from the same pre-reduce state, because each call
touches only its own node's target. -/
theorem reduceAll_spec (mapF : ℕ × ℕ → Option ℤ) (nthreads nodes nbins : ℕ)
    (st : PassState) (nid : ℕ) (hn : nid < nodes) (b : ℕ) (hb : b < nbins) :
    (reduceAll mapF nthreads nodes nbins st).target nid b =
    if ∃ tid < nthreads, st.used (tid, nid) = true then
      st.target nid b +
        ∑ tid ∈ Finset.range nthreads, scratchContrib mapF st nid tid b
    else gzero := by
  have key : ∀ k,
      ((List.range k).foldl (fun st2 n => reduceHist mapF nthreads st2 n 0 nbins)
        st).used = st.used ∧
      ((List.range k).foldl (fun st2 n => reduceHist mapF nthreads st2 n 0 nbins)
        st).scratch = st.scratch ∧
      (∀ n, k ≤ n →
        ((List.range k).foldl (fun st2 n2 => reduceHist mapF nthreads st2 n2 0 nbins)
          st).target n = st.target n) ∧
      (∀ n, n < k → ∀ b', b' < nbins →
        ((List.range k).foldl (fun st2 n2 => reduceHist mapF nthreads st2 n2 0 nbins)
          st).target n b' =
        if ∃ tid < nthreads, st.used (tid, n) = true then
          st.target n b' +
            ∑ tid ∈ Finset.range nthreads, scratchContrib mapF st n tid b'
        else gzero) := by
    intro k
    induction k with
    | zero =>
      exact ⟨rfl, rfl, fun n _ => rfl, fun n hnk => absurd hnk (Nat.not_lt_zero n)⟩
    | succ k ih =>
      obtain ⟨ihu, ihs, ihhi, ihlo⟩ := ih
      rw [List.range_succ, List.foldl_append, List.foldl_cons, List.foldl_nil]
      obtain ⟨ru, rs, rframe, rtar⟩ := reduceHist_spec mapF nthreads
        ((List.range k).foldl (fun st2 n2 => reduceHist mapF nthreads st2 n2 0 nbins) st)
        k 0 nbins
      refine ⟨ru.trans ihu, rs.trans ihs, ?_, ?_⟩
      · intro n hkn
        rw [rframe n (by omega)]
        exact ihhi n (by omega)
      · intro n hnk b' hb'
        by_cases hnek : n = k
        · subst hnek
          rw [rtar b' (Nat.zero_le b') hb', ihu, ihhi n (le_refl n)]
          have hc : ∀ tid ∈ Finset.range nthreads,
              scratchContrib mapF ((List.range n).foldl
                (fun st2 n2 => reduceHist mapF nthreads st2 n2 0 nbins) st) n tid b' =
              scratchContrib mapF st n tid b' := fun tid _ =>
            scratchContrib_congr mapF st _ ihu ihs n tid b'
          rw [Finset.sum_congr rfl hc]
        · rw [rframe n hnek]
          exact ihlo n (by omega) b' hb'
  exact (key nodes).2.2.2 nid hn b hb

theorem refOf_eq_target_imp (v : ℤ) (nid : ℕ)
    (h : refOf v nid = HistRef.target nid) : v = -1 := by
  unfold refOf at h
  split at h
  · assumption
  · exact absurd h (fun hh => HistRef.noConfusion hh)

/-- Reducing any state that satisfies the pass invariant for the full item
list recovers, in every node's target and every bin, the serial per-node sum:
the owner thread's direct-to-target partial plus all other used threads'
scratch partials regroup the work space by node, and an untouched node is
zero-filled (its serial sum is empty). -/
theorem reduce_of_passInv (nthreads nodes nbins : ℕ) (space : BlockedSpace2d)
    (gpair : ℕ → GPair) (binOf : ℕ → ℕ) (stale : ℕ → ℕ → GPair) (st1 : PassState)
    (hrun : PassInv ((matchNodeNidPairToHist nthreads nodes
        (matchThreadsToNodes nthreads nodes space)).1) nbins gpair binOf stale
      (unitList nthreads space) st1)
    (hT : 0 < nthreads)
    (hmono : List.Chain' (· ≤ ·) (space.map Prod.fst))
    (hnodes : ∀ u ∈ space, u.1 < nodes)
    (nid : ℕ) (hnid : nid < nodes) (b : ℕ) (hb : b < nbins) :
    (reduceAll ((matchNodeNidPairToHist nthreads nodes
        (matchThreadsToNodes nthreads nodes space)).1) nthreads nodes nbins
      st1).target nid b = serialHist gpair binOf space nid b := by
  rw [reduceAll_spec ((matchNodeNidPairToHist nthreads nodes
    (matchThreadsToNodes nthreads nodes space)).1) nthreads nodes nbins st1
    nid hnid b hb]
  by_cases hunits : ∃ j, j < spaceSize space ∧ getFirstDimension space j = nid
  · obtain ⟨j0, hj0, hfd0⟩ := hunits
    obtain ⟨tj, htjT, htj1, htj2⟩ := exists_owner_thread nthreads space hT j0 hj0
    have huj : space.getD j0 (0, []) ∈ chunkUnits nthreads space tj :=
      (mem_chunkUnits_iff nthreads space tj _).mpr ⟨j0, htj1, htj2, hj0, rfl⟩
    have hmtj : markedAt nthreads nodes space tj (space.getD j0 (0, [])).1 = true :=
      touch_implies_marked nthreads nodes space hmono hnodes tj htjT _ huj
    rw [show (space.getD j0 (0, [])).1 = nid from hfd0] at hmtj
    obtain ⟨t0, ht0le, hm0, hr0⟩ := exists_first_marked nodes
      (matchThreadsToNodes nthreads nodes space) nid hmtj
    have ht0T : t0 < nthreads := lt_of_le_of_lt ht0le htjT
    have hmap0 : (matchNodeNidPairToHist nthreads nodes
        (matchThreadsToNodes nthreads nodes space)).1 (t0, nid) = some (-1) :=
      mapHist_first_marked nthreads nodes _ ht0T hnid hm0 hr0
    have htouch0 : pairTouched (unitList nthreads space) t0 nid := by
      obtain ⟨u0, hu0, hu0n⟩ := marked_implies_touch nthreads nodes space hmono hnodes
        t0 nid hnid ⟨j0, hj0, hfd0⟩ hm0
      exact (pairTouched_unitList nthreads space t0 nid).mpr ⟨ht0T, u0, hu0, hu0n⟩
    have hused0 : st1.used (t0, nid) = true := (hrun.used_iff t0 nid).mpr htouch0
    have hex : ∃ tid < nthreads, st1.used (tid, nid) = true := ⟨t0, ht0T, hused0⟩
    rw [if_pos hex]
    have htarget : st1.target nid b =
        pairContrib gpair binOf (unitList nthreads space) t0 nid b := by
      have hc := hrun.content t0 nid (-1) hmap0 htouch0 b hb
      rw [refOf_minus_one] at hc
      exact hc
    have hsplit : ∀ tid ∈ Finset.range nthreads,
        pairContrib gpair binOf (unitList nthreads space) tid nid b =
        scratchContrib ((matchNodeNidPairToHist nthreads nodes
            (matchThreadsToNodes nthreads nodes space)).1) st1 nid tid b +
          (if tid = t0 then
            pairContrib gpair binOf (unitList nthreads space) t0 nid b else 0) := by
      intro tid htid
      rw [Finset.mem_range] at htid
      by_cases htc : pairTouched (unitList nthreads space) tid nid
      · have hused : st1.used (tid, nid) = true := (hrun.used_iff tid nid).mpr htc
        obtain ⟨htT', u, hu, hun⟩ := (pairTouched_unitList nthreads space tid nid).mp htc
        have hmk : markedAt nthreads nodes space tid nid = true := by
          have h2 := touch_implies_marked nthreads nodes space hmono hnodes tid htT' u hu
          rw [hun] at h2
          exact h2
        obtain ⟨v, hv⟩ := mapHist_present nthreads nodes _ htT' hnid hmk
        unfold scratchContrib
        rw [if_pos hused, hv]
        dsimp only
        by_cases hveq : refOf v nid = HistRef.target nid
        · have hv1 : v = -1 := refOf_eq_target_imp v nid hveq
          subst hv1
          obtain ⟨-, -, hmk', hcases⟩ := mapHist_cases nthreads nodes _ hv
          have hrk : rankOf nodes (matchThreadsToNodes nthreads nodes space) nid tid = 0 := by
            rcases hcases with ⟨-, hr⟩ | ⟨-, -, hveq2⟩
            · exact hr
            · omega
          have hte : tid = t0 := rank_zero_unique nodes
            (matchThreadsToNodes nthreads nodes space) nid hmk' hm0 hrk hr0
          rw [if_pos hveq, if_pos hte, zero_add, hte]
        · have hvpos : 0 ≤ v := by
            obtain ⟨-, -, -, hcases⟩ := mapHist_cases nthreads nodes _ hv
            rcases hcases with ⟨hveq2, -⟩ | ⟨-, -, hveq2⟩
            · exact absurd (hveq2 ▸ refOf_minus_one nid) hveq
            · rw [hveq2]
              exact Int.natCast_nonneg _
          have htne : tid ≠ t0 := by
            intro hte
            rw [hte] at hv
            have hvm : v = -1 := Option.some.inj (hv.symm.trans hmap0)
            exact hveq (hvm ▸ refOf_minus_one nid)
          rw [if_neg hveq, if_neg htne, add_zero]
          have hc := hrun.content tid nid v hv htc b hb
          rw [refOf_nonneg v nid hvpos] at hc
          exact hc.symm
      · have hused : st1.used (tid, nid) = false := by
          rcases Bool.eq_false_or_eq_true (st1.used (tid, nid)) with h | h
          · exact absurd ((hrun.used_iff tid nid).mp h) htc
          · exact h
        have htne : tid ≠ t0 := fun hte => htc (hte ▸ htouch0)
        unfold scratchContrib
        rw [hused, if_neg (Bool.false_ne_true), if_neg htne, add_zero,
          pairContrib_of_not_touched gpair binOf (unitList nthreads space) tid nid b htc]
    calc st1.target nid b + ∑ tid ∈ Finset.range nthreads,
          scratchContrib ((matchNodeNidPairToHist nthreads nodes
            (matchThreadsToNodes nthreads nodes space)).1) st1 nid tid b
        = pairContrib gpair binOf (unitList nthreads space) t0 nid b +
          ∑ tid ∈ Finset.range nthreads,
            scratchContrib ((matchNodeNidPairToHist nthreads nodes
              (matchThreadsToNodes nthreads nodes space)).1) st1 nid tid b := by
          rw [htarget]
      _ = ∑ tid ∈ Finset.range nthreads,
            pairContrib gpair binOf (unitList nthreads space) tid nid b := by
          rw [Finset.sum_congr rfl hsplit, Finset.sum_add_distrib,
            Finset.sum_ite_eq' (Finset.range nthreads) t0
              (fun _ => pairContrib gpair binOf (unitList nthreads space) t0 nid b),
            if_pos (Finset.mem_range.mpr ht0T)]
          exact add_comm _ _
      _ = serialHist gpair binOf space nid b :=
          sum_pairContrib_unitList gpair binOf nthreads space hT nid b
  · have hnot : ∀ tid, ¬ pairTouched (unitList nthreads space) tid nid := by
      intro tid htc
      obtain ⟨htT, u, hu, hun⟩ := (pairTouched_unitList nthreads space tid nid).mp htc
      obtain ⟨j, hj1, hj2, hj3, hget⟩ := (mem_chunkUnits_iff nthreads space tid u).mp hu
      refine hunits ⟨j, hj3, ?_⟩
      unfold getFirstDimension
      rw [hget, hun]
    have hnouse : ¬ ∃ tid < nthreads, st1.used (tid, nid) = true := by
      rintro ⟨tid, -, hu⟩
      exact hnot tid ((hrun.used_iff tid nid).mp hu)
    rw [if_neg hnouse]
    have hfil : space.filter (fun u => decide (u.1 = nid)) = [] := by
      rw [List.filter_eq_nil_iff]
      intro u hu hdec
      obtain ⟨j, hj, hget⟩ := List.mem_iff_getElem.mp hu
      refine hunits ⟨j, hj, ?_⟩
      unfold getFirstDimension
      rw [List.getD_eq_getElem space (0, []) hj, hget]
      exact of_decide_eq_true hdec
    unfold serialHist
    rw [hfil]
    rfl

/-- A complete build pass exactly as `ParallelGHistBuilder` runs it: `Reset`
computes the thread marking (`MatchThreadsToNodes`) and the (thread, node) →
histogram assignment (`MatchNodeNidPairToHist`), every thread aggregates its
contiguous chunk of the work space through `GetInitializedHist`, and
`ReduceHist(nid, 0, nbins)` runs for every node.  `stale` holds whatever the
caller's targets contained before the pass and `scratch0` the stale scratch
buffer contents; the result is the final target contents. -/
def buildPass (nthreads nodes nbins : ℕ) (space : BlockedSpace2d)
    (gpair : ℕ → GPair) (binOf : ℕ → ℕ) (stale scratch0 : ℕ → ℕ → GPair) :
    ℕ → ℕ → GPair :=
  (reduceAll ((matchNodeNidPairToHist nthreads nodes
      (matchThreadsToNodes nthreads nodes space)).1) nthreads nodes nbins
    (runPass ((matchNodeNidPairToHist nthreads nodes
        (matchThreadsToNodes nthreads nodes space)).1) nbins nthreads space gpair
      binOf ⟨fun _ => false, stale, scratch0, fun _ => false⟩)).target

/-- C1: for every number of nodes, number of threads (at least one), work
space whose units carry monotone node ids below `nodes`, gradient pairs and
bin index, after each thread accumulates its chunk through
`GetInitializedHist(tid, nid)` and `ReduceHist(nid, 0, nbins)` is called for
every node, the target histogram of every node at every bin equals the serial
sum of the gradient pairs of the rows assigned to that node, mapped through
the bin index — independent of the thread count and of the per-thread
chunking, which are fully determined inputs of the same serial result. -/
theorem c1_parallel_build_equals_serial (nthreads nodes nbins : ℕ)
    (space : BlockedSpace2d) (gpair : ℕ → GPair) (binOf : ℕ → ℕ)
    (stale scratch0 : ℕ → ℕ → GPair)
    (hT : 0 < nthreads)
    (hmono : List.Chain' (· ≤ ·) (space.map Prod.fst))
    (hnodes : ∀ u ∈ space, u.1 < nodes) :
    ∀ nid < nodes, ∀ b < nbins,
      buildPass nthreads nodes nbins space gpair binOf stale scratch0 nid b =
      serialHist gpair binOf space nid b := by
  intro nid hnid b hb
  have hinj : ∀ p1 p2 v1 v2,
      (matchNodeNidPairToHist nthreads nodes
        (matchThreadsToNodes nthreads nodes space)).1 p1 = some v1 →
      (matchNodeNidPairToHist nthreads nodes
        (matchThreadsToNodes nthreads nodes space)).1 p2 = some v2 →
      p1 ≠ p2 → refOf v1 p1.2 ≠ refOf v2 p2.2 :=
    fun p1 p2 v1 v2 a1 a2 hne =>
      mapHist_refOf_inj nthreads nodes (matchThreadsToNodes nthreads nodes space) a1 a2 hne
  have hP : ∀ x ∈ unitList nthreads space, ∃ idx,
      (matchNodeNidPairToHist nthreads nodes
        (matchThreadsToNodes nthreads nodes space)).1 (x.1, x.2.1) = some idx := by
    intro x hx
    obtain ⟨hxt, hxc⟩ := (mem_unitList_iff nthreads space x).mp hx
    have hm : markedAt nthreads nodes space x.1 x.2.1 = true :=
      touch_implies_marked nthreads nodes space hmono hnodes x.1 hxt x.2 hxc
    have hxc' : x.2 ∈ (space.drop (chunkBegin (spaceSize space) nthreads x.1)).take
        (chunckSize (spaceSize space) nthreads) := hxc
    have hmem : x.2 ∈ space := List.mem_of_mem_drop (List.mem_of_mem_take hxc')
    exact mapHist_present nthreads nodes _ hxt (hnodes x.2 hmem) hm
  have hrun := passInv_run ((matchNodeNidPairToHist nthreads nodes
      (matchThreadsToNodes nthreads nodes space)).1) nbins gpair binOf stale hinj
    (unitList nthreads space) hP [] ⟨fun _ => false, stale, scratch0, fun _ => false⟩
    (passInv_init _ nbins gpair binOf stale scratch0)
  rw [List.nil_append] at hrun
  unfold buildPass
  rw [runPass_eq]
  exact reduce_of_passInv nthreads nodes nbins space gpair binOf stale _ hrun hT
    hmono hnodes nid hnid b hb

/-- Witness for C1 at a concrete instance: two threads, two nodes, two bins,
work space `[(0,[0,1]),(1,[2])]`, stale targets and stale scratch rows. -/
theorem c1_parallel_build_equals_serial_witness :
    ((0 : ℕ) < 2 ∧
     List.Chain' (· ≤ ·)
       (([((0 : ℕ), [(0 : ℕ), 1]), (1, [2])] : BlockedSpace2d).map Prod.fst) ∧
     (∀ u ∈ ([((0 : ℕ), [(0 : ℕ), 1]), (1, [2])] : BlockedSpace2d), u.1 < 2)) ∧
    buildPass 2 2 2 [(0, [0, 1]), (1, [2])] (fun r => ((r : ℚ), 1)) (fun r => r % 2)
      (fun _ _ => ((5 : ℚ), (7 : ℚ))) (fun _ _ => ((11 : ℚ), (13 : ℚ))) 1 1 =
    serialHist (fun r => ((r : ℚ), 1)) (fun r => r % 2) [(0, [0, 1]), (1, [2])] 1 1 :=
  ⟨⟨by decide, by simp, by decide⟩,
   c1_parallel_build_equals_serial 2 2 2 [(0, [0, 1]), (1, [2])]
     (fun r => ((r : ℚ), 1)) (fun r => r % 2)
     (fun _ _ => ((5 : ℚ), (7 : ℚ))) (fun _ _ => ((11 : ℚ), (13 : ℚ)))
     (by decide) (by simp) (by decide) 1 (by decide) 1 (by decide)⟩

/-! ### AllocateAdditionalHistograms (C5) -/

/-- `ParallelGHistBuilder::AllocateAdditionalHistograms` (lines 511–533): for
each node count the marked threads (`nthreads_for_nid`), accumulate
`max(0, count - 1)` additional rows over the nodes, and register each of them
in the buffer with `AddHistRow(i)`. -/
def allocateAdditionalHistograms (nthreads nodes : ℕ) (marked : ℕ → Bool)
    (buf : HistCollection) : Option HistCollection :=
  (List.range (((List.range nodes).map
      (fun nid => rankOf nodes marked nid nthreads - 1)).sum)).foldl
    (fun acc i => acc.bind (fun h => h.AddHistRow i)) (some buf)

theorem addHistRow_range_step (nbins0 k : ℕ) (ca : Bool) (d : List (List GPair)) :
    HistCollection.AddHistRow ⟨nbins0, k, ca, d, List.range k⟩ k =
    some ⟨nbins0, k + 1, ca,
      if d.length < k + 1 then d ++ List.replicate (k + 1 - d.length) ([] : List GPair)
      else d,
      List.range (k + 1)⟩ := by
  unfold HistCollection.AddHistRow
  dsimp only
  rw [if_pos (le_of_eq (List.length_range k)), List.length_range]
  have h1 : k + 1 - k = 1 := by omega
  rw [h1, List.replicate_one]
  have h2 : (List.range k ++ [kMax]).getD k kMax = kMax := by
    rw [List.getD_eq_getElem?_getD,
      List.getElem?_append_right (le_of_eq (List.length_range k)), List.length_range]
    simp
  rw [h2, if_neg (fun hc => hc rfl)]
  have h3 : (List.range k ++ [kMax]).set k k = List.range (k + 1) := by
    rw [List.set_append_right k k (le_of_eq (List.length_range k))]
    simp [List.range_succ]
  rw [h3]

theorem addHistRow_fold (nbins0 : ℕ) (ca : Bool) (d0 : List (List GPair)) (k : ℕ) :
    ∃ d : List (List GPair),
      (List.range k).foldl (fun acc i => acc.bind (fun h => h.AddHistRow i))
        (some (⟨nbins0, 0, ca, d0, []⟩ : HistCollection)) =
      some ⟨nbins0, k, ca, d, List.range k⟩ := by
  induction k with
  | zero => exact ⟨d0, rfl⟩
  | succ k ih =>
    obtain ⟨d, hd⟩ := ih
    refine ⟨if d.length < k + 1 then d ++ List.replicate (k + 1 - d.length) [] else d, ?_⟩
    rw [List.range_succ, List.foldl_append, hd, List.foldl_cons, List.foldl_nil,
      Option.some_bind, addHistRow_range_step, ← List.range_succ]

theorem rowExists_of_range (hc : HistCollection) (k i : ℕ)
    (hrp : hc.row_ptr = List.range k) (hi : i < k) (hk : k ≤ kMax) :
    hc.RowExists i = true := by
  unfold HistCollection.RowExists
  rw [hrp]
  have h1 : i < (List.range k).length := by
    rw [List.length_range]
    exact hi
  have h2 : (List.range k).getD i kMax = i := by
    rw [List.getD_eq_getElem (List.range k) kMax h1]
    simp
  refine decide_eq_true ⟨h1, ?_⟩
  rw [h2]
  have hkm : kMax = 4294967295 := rfl
  omega

/-- C5 counterexample: one thread, two nodes, work space `[(0, [0])]` — node 1
owns no unit, so no thread is marked for it, `MatchNodeNidPairToHist` assigns
it nothing at all (no `(thread, 1)` pair maps to `-1`, refuting "for each
node, exactly one pair maps to the sentinel"), and zero scratch rows are
reserved. -/
theorem c5_match_counterexample :
    (matchNodeNidPairToHist 1 2
      (matchThreadsToNodes 1 2 [((0 : ℕ), [(0 : ℕ)])])).1 (0, 1) = none ∧
    (matchNodeNidPairToHist 1 2
      (matchThreadsToNodes 1 2 [((0 : ℕ), [(0 : ℕ)])])).2 = 0 ∧
    ∀ t, (matchNodeNidPairToHist 1 2
      (matchThreadsToNodes 1 2 [((0 : ℕ), [(0 : ℕ)])])).1 (t, 1) ≠ some (-1) := by
  refine ⟨by decide, by decide, ?_⟩
  intro t ht
  have hs := (matchNodeNidPairToHist_spec 1 2
    (matchThreadsToNodes 1 2 [((0 : ℕ), [(0 : ℕ)])])).1 (t, 1)
  dsimp only at hs
  rw [ht] at hs
  by_cases hc : (1 : ℕ) < 2 ∧ t < 1 ∧
      matchThreadsToNodes 1 2 [((0 : ℕ), [(0 : ℕ)])] (t * 2 + 1) = true
  · obtain ⟨-, ht1, hm⟩ := hc
    have ht0 : t = 0 := by omega
    subst ht0
    exact absurd hm (by decide)
  · rw [if_neg hc] at hs
    exact Option.noConfusion hs

/-- C5 (amended): after `Reset`, for every node touched by at least one
thread (the needed correction: a node with no touching thread — possible in
distributed mode — has no `-1` pair at all, see the counterexample): exactly
one (thread, node) pair maps to the sentinel `-1`; every other touching
thread maps to a scratch index inside the node's own block
`[offOf nid, offOf (nid+1))`; scratch indices of distinct pairs are distinct;
the node's block reserves exactly `count - 1` rows (truncated subtraction,
i.e. `max(0, count-1)`) where `count` is the number of threads touching the
node; the builder's final counter is the total over all nodes; and
`AllocateAdditionalHistograms` registers exactly that many rows in the
freshly re-initialized buffer, every one of which then exists. -/
theorem c5_match_assignment_invariant (nthreads nodes : ℕ)
    (space : BlockedSpace2d) (nid : ℕ) (hnid : nid < nodes) (t0 : ℕ)
    (ht0 : t0 < nthreads)
    (hm0 : matchThreadsToNodes nthreads nodes space (t0 * nodes + nid) = true)
    (nbins0 : ℕ) (buf0 : HistCollection)
    (htot : offOf nthreads nodes (matchThreadsToNodes nthreads nodes space) nodes
      ≤ kMax) :
    (∃! t, (matchNodeNidPairToHist nthreads nodes
      (matchThreadsToNodes nthreads nodes space)).1 (t, nid) = some (-1)) ∧
    (∀ t, t < nthreads →
      matchThreadsToNodes nthreads nodes space (t * nodes + nid) = true →
      (matchNodeNidPairToHist nthreads nodes
        (matchThreadsToNodes nthreads nodes space)).1 (t, nid) = some (-1) ∨
      ∃ k : ℕ,
        (matchNodeNidPairToHist nthreads nodes
          (matchThreadsToNodes nthreads nodes space)).1 (t, nid) = some (k : ℤ) ∧
        offOf nthreads nodes (matchThreadsToNodes nthreads nodes space) nid ≤ k ∧
        k < offOf nthreads nodes (matchThreadsToNodes nthreads nodes space) (nid + 1)) ∧
    (∀ p1 p2 : ℕ × ℕ, ∀ k1 k2 : ℕ,
      (matchNodeNidPairToHist nthreads nodes
        (matchThreadsToNodes nthreads nodes space)).1 p1 = some (k1 : ℤ) →
      (matchNodeNidPairToHist nthreads nodes
        (matchThreadsToNodes nthreads nodes space)).1 p2 = some (k2 : ℤ) →
      p1 ≠ p2 → k1 ≠ k2) ∧
    (offOf nthreads nodes (matchThreadsToNodes nthreads nodes space) (nid + 1) =
      offOf nthreads nodes (matchThreadsToNodes nthreads nodes space) nid +
      (rankOf nodes (matchThreadsToNodes nthreads nodes space) nid nthreads - 1)) ∧
    ((matchNodeNidPairToHist nthreads nodes
      (matchThreadsToNodes nthreads nodes space)).2 =
      offOf nthreads nodes (matchThreadsToNodes nthreads nodes space) nodes) ∧
    (∃ buf : HistCollection,
      allocateAdditionalHistograms nthreads nodes
        (matchThreadsToNodes nthreads nodes space)
        (buf0.Init nbins0) = some buf ∧
      ∀ i < offOf nthreads nodes (matchThreadsToNodes nthreads nodes space) nodes,
        buf.RowExists i = true) := by
  obtain ⟨tf, htfle, hmf, hrf⟩ := exists_first_marked nodes
    (matchThreadsToNodes nthreads nodes space) nid hm0
  have htfT : tf < nthreads := lt_of_le_of_lt htfle ht0
  refine ⟨?_, ?_, ?_, offOf_succ nthreads nodes _ nid,
    (matchNodeNidPairToHist_spec nthreads nodes _).2, ?_⟩
  · refine ⟨tf, mapHist_first_marked nthreads nodes _ htfT hnid hmf hrf, ?_⟩
    intro t ht
    obtain ⟨hn2, ht2, hm2, hcases⟩ := mapHist_cases nthreads nodes _ ht
    have hrk : rankOf nodes (matchThreadsToNodes nthreads nodes space) nid t = 0 := by
      rcases hcases with ⟨-, hr⟩ | ⟨-, -, hveq⟩
      · exact hr
      · omega
    exact rank_zero_unique nodes (matchThreadsToNodes nthreads nodes space) nid
      hm2 hmf hrk hrf
  · intro t htT hmt
    obtain ⟨v, hv⟩ := mapHist_present nthreads nodes _ htT hnid hmt
    obtain ⟨-, -, -, hcases⟩ := mapHist_cases nthreads nodes _ hv
    dsimp only at hcases
    rcases hcases with ⟨hv1, -⟩ | ⟨hr1, hr2, hv2⟩
    · exact Or.inl (hv1 ▸ hv)
    · refine Or.inr ⟨offOf nthreads nodes (matchThreadsToNodes nthreads nodes space)
        nid + rankOf nodes (matchThreadsToNodes nthreads nodes space) nid t - 1,
        hv2 ▸ hv, by omega, ?_⟩
      rw [offOf_succ]
      have hcnt := rankOf_mono nodes (matchThreadsToNodes nthreads nodes space) nid
        (le_of_lt htT)
      omega
  · intro p1 p2 k1 k2 hv1 hv2 hne hkk
    apply mapHist_refOf_inj nthreads nodes (matchThreadsToNodes nthreads nodes space)
      hv1 hv2 hne
    rw [refOf_nonneg _ _ (Int.natCast_nonneg k1),
      refOf_nonneg _ _ (Int.natCast_nonneg k2),
      Int.toNat_natCast, Int.toNat_natCast, hkk]
  · obtain ⟨d, hd⟩ := addHistRow_fold nbins0 buf0.contiguous_allocation
      (if buf0.nbins ≠ nbins0 then [] else buf0.data)
      (offOf nthreads nodes (matchThreadsToNodes nthreads nodes space) nodes)
    refine ⟨⟨nbins0,
      offOf nthreads nodes (matchThreadsToNodes nthreads nodes space) nodes,
      buf0.contiguous_allocation, d,
      List.range (offOf nthreads nodes (matchThreadsToNodes nthreads nodes space)
        nodes)⟩, hd, ?_⟩
    intro i hi
    exact rowExists_of_range _
      (offOf nthreads nodes (matchThreadsToNodes nthreads nodes space) nodes) i rfl
      hi htot

/-- Witness for C5 at a concrete instance: two threads, one node, work space
`[(0,[0]),(0,[1])]` (both threads touch node 0), a stale previous buffer. -/
theorem c5_match_assignment_invariant_witness :
    ((0 : ℕ) < 1 ∧ (0 : ℕ) < 2 ∧
     matchThreadsToNodes 2 1 [((0 : ℕ), [(0 : ℕ)]), (0, [1])] (0 * 1 + 0) = true ∧
     offOf 2 1 (matchThreadsToNodes 2 1 [((0 : ℕ), [(0 : ℕ)]), (0, [1])]) 1 ≤ kMax) ∧
    (∃! t, (matchNodeNidPairToHist 2 1
      (matchThreadsToNodes 2 1 [((0 : ℕ), [(0 : ℕ)]), (0, [1])])).1 (t, 0) =
        some (-1)) :=
  ⟨⟨by decide, by decide, by decide, by decide⟩,
   (c5_match_assignment_invariant 2 1 [((0 : ℕ), [(0 : ℕ)]), (0, [1])] 0 (by decide)
     0 (by decide) (by decide) 7 ⟨7, 3, false, [[]], [9]⟩ (by decide)).1⟩

end HistUtil
